import Mathlib

/-!
Shallow embedding of the core conversion pipeline of `src/main.py` of the
Delicious repository: `custom_relpath` (lines 17-47), `convert_exe_to_sb3`
(lines 50-122), `_update_progress` (lines 125-131) and `_cleanup_temp_dir`
(lines 134-144), together with models of the Python standard-library path
primitives they call (`os.path.normpath`, `os.path.abspath`,
`os.path.join`, `os.path.basename`, `os.path.splitext`,
`os.path.commonprefix`, `str.split`, `str.lstrip`, the `in` substring
test) and an abstract filesystem supporting `os.makedirs`,
`os.path.exists`, `os.walk`, `ZipFile.extractall` and `ZipFile.write`.

Paths are modelled as sequences of characters (`List Char`), exactly as
Python manipulates them.  The host platform of the running program is
modelled as Windows (`os.sep = '\'`; `os.path.exists` and friends accept
both `'\'` and `'/'` as separators), the platform this PySide6
exe-repackaging GUI targets; the POSIX flavours of the path primitives are
embedded as well, for the platform-generic claims about `custom_relpath`.
The drive-letter / UNC handling of the Windows primitives is embedded for
the driveless rooted paths the program manipulates.
-/

/-- A path segment (one file or directory name), as a character sequence. -/
abbrev Seg := List Char

/-- The characters of a string literal (Python strings are char sequences). -/
def chars (s : String) : List Char := s.data

/-- `True` for the two characters Windows accepts as path separators. -/
def isSepW (c : Char) : Bool := c = '\\' || c = '/'

/-- The net effect of lines 80-91 of `convert_exe_to_sb3`: the first loop
replaces every `'/'` of the workspace path by `'\'` in place (indexing by
the running counter `sum`), the second loop rebuilds the string character
by character.  Together they are the character map sending `'/'` to `'\'`
and fixing everything else. -/
def mangle (p : List Char) : List Char :=
  p.map (fun c => if c = '/' then '\\' else c)

/-- Model of Python `str.split(sep)` for a one-character separator:
splits at every occurrence, keeping empty chunks; `"".split(sep) = [""]`. -/
def splitSep (c : Char) : List Char → List (List Char)
  | [] => [[]]
  | x :: xs =>
    if x = c then [] :: splitSep c xs
    else
      match splitSep c xs with
      | [] => [[x]]
      | h :: t => (x :: h) :: t

/-- Model of Python `sep.join(parts)` for a one-character separator. -/
def joinSep (c : Char) : List (List Char) → List Char
  | [] => []
  | [s] => s
  | s :: t => s ++ c :: joinSep c t

/-- Model of `os.path.commonprefix([a, b])`: the character-wise common
prefix of the two paths (Python compares raw characters, not segments). -/
def commonPref : List Char → List Char → List Char
  | a :: as, b :: bs => if a = b then a :: commonPref as bs else []
  | _, _ => []

/-- Model of the Python substring test `s in p`. -/
def isSubstr (s p : List Char) : Bool :=
  p.tails.any (fun t => s.isPrefixOf t)

/-- Model of `ntpath.splitdrive` (after `'/'` has been replaced by `'\'`):
splits off a `X:` drive or a `\\machine\mount` UNC prefix; driveless paths
are returned unchanged with an empty drive. -/
def splitdriveWin (p : List Char) : List Char × List Char :=
  match p with
  | c1 :: c2 :: rest =>
    if c1 = '\\' && c2 = '\\' then
      match rest with
      | [] => ([], p)
      | c3 :: _ =>
        if c3 = '\\' then ([], p)
        else
          match rest.findIdx? (fun c => c = '\\') with
          | none => (p, [])
          | some i =>
            match (rest.drop (i + 1)).findIdx? (fun c => c = '\\') with
            | some j =>
              if j = 0 then ([], p)
              else (p.take (2 + i + 1 + j), p.drop (2 + i + 1 + j))
            | none => (p, [])
    else if c2 = ':' then ([c1, c2], rest)
    else ([], p)
  | _ => ([], p)

/-- The `..`/`.`/empty-component collapsing loop of `ntpath.normpath`,
expressed as the equivalent left fold over the components: empty and `.`
components are dropped; `..` pops the previous kept component unless that
component is itself `..`; a `..` at the root of a rooted path is dropped;
otherwise `..` is kept. -/
def collapseNT (rooted : Bool) (comps : List Seg) : List Seg :=
  comps.foldl
    (fun acc comp =>
      if comp = [] ∨ comp = ['.'] then acc
      else if comp = ['.', '.'] then
        if acc ≠ [] ∧ acc.getLast? ≠ some ['.', '.'] then acc.dropLast
        else if acc = [] ∧ rooted then acc
        else acc ++ [comp]
      else acc ++ [comp]) []

/-- Model of `ntpath.normpath`: replace `'/'` by `'\'`, split off the
drive, absorb leading separators into the prefix, collapse the components,
and rejoin (empty results become `.`). -/
def normpathWin (p : List Char) : List Char :=
  let p1 := mangle p
  let dr := splitdriveWin p1
  let rooted := dr.2.head? = some '\\'
  let pre := if rooted then dr.1 ++ ['\\'] else dr.1
  let body := dr.2.dropWhile (fun c => c = '\\')
  let comps2 := collapseNT (pre.getLast? = some '\\') (splitSep '\\' body)
  if pre = [] ∧ comps2 = [] then ['.']
  else pre ++ joinSep '\\' comps2

/-- Model of `ntpath.isabs`: after dropping the drive, the path starts
with a separator. -/
def isAbsWin (p : List Char) : Bool :=
  ((splitdriveWin (mangle p)).2.head?.map isSepW).getD false

/-- Model of `ntpath.join` for two driveless operands: an absolute second
operand wins; otherwise the second operand is appended, inserting a `'\'`
unless the first operand is empty or already ends in a separator or a
colon. -/
def joinWin (a b : List Char) : List Char :=
  if (b.head?.map isSepW).getD false then b
  else if a = [] then b
  else if (a.getLast?.map (fun c => isSepW c || c = ':')).getD false then a ++ b
  else a ++ '\\' :: b

/-- Model of `ntpath.abspath` (with the process working directory as an
explicit parameter): relative paths are resolved against `cwd`, and the
result is normalized. -/
def abspathWin (cwd p : List Char) : List Char :=
  if isAbsWin p then normpathWin p else normpathWin (joinWin cwd p)

/-- The component-collapsing loop of `posixpath.normpath`, as a left fold:
empty and `.` components are dropped; a component is kept if it is not
`..`, or if the path is relative and nothing has been kept yet, or if the
last kept component is `..`; otherwise the `..` pops the last kept
component (dropped entirely at the root of an absolute path). -/
def collapseP (slashes : Nat) (comps : List Seg) : List Seg :=
  comps.foldl
    (fun acc comp =>
      if comp = [] ∨ comp = ['.'] then acc
      else if comp ≠ ['.', '.'] ∨ (slashes = 0 ∧ acc = [])
          ∨ acc.getLast? = some ['.', '.'] then acc ++ [comp]
      else acc.dropLast) []

/-- Model of `posixpath.normpath`, including the POSIX special case that
exactly two leading slashes are preserved. -/
def normpathPosix (p : List Char) : List Char :=
  if p = [] then ['.']
  else
    let slashes : Nat :=
      if p.head? = some '/' then
        if p.take 2 = ['/', '/'] ∧ p.take 3 ≠ ['/', '/', '/'] then 2 else 1
      else 0
    let comps2 := collapseP slashes (splitSep '/' p)
    let out := List.replicate slashes '/' ++ joinSep '/' comps2
    if out = [] then ['.'] else out

/-- Model of `posixpath.isabs`. -/
def isAbsP (p : List Char) : Bool := p.head? = some '/'

/-- Model of `posixpath.join` for two operands. -/
def joinPosix (a b : List Char) : List Char :=
  if isAbsP b then b
  else if a = [] then b
  else if a.getLast? = some '/' then a ++ b
  else a ++ '/' :: b

/-- Model of `posixpath.abspath` with an explicit working directory. -/
def abspathPosix (cwd p : List Char) : List Char :=
  if isAbsP p then normpathPosix p else normpathPosix (joinPosix cwd p)

/-- The platform-dependent primitives `custom_relpath` depends on:
`os.sep`, `os.path.normpath` and `os.path.abspath`. -/
structure Platform where
  sep : Char
  normpath : List Char → List Char
  abspath : List Char → List Char

/-- The Windows instantiation (with the working directory `cwd`). -/
def winPlat (cwd : List Char) : Platform :=
  ⟨'\\', normpathWin, abspathWin cwd⟩

/-- The POSIX instantiation (with the working directory `cwd`). -/
def posixPlat (cwd : List Char) : Platform :=
  ⟨'/', normpathPosix, abspathPosix cwd⟩

/-- The special-symbol loop of `custom_relpath` (lines 38-47): `..` pops
the previously kept part (doing nothing at the front), `.` is dropped,
everything else is kept. -/
def relCollapse (parts : List Seg) : List Seg :=
  parts.foldl
    (fun acc part =>
      if part = ['.', '.'] then acc.dropLast
      else if part = ['.'] then acc
      else acc ++ [part]) []

/-- Embedding of `custom_relpath` (src/main.py lines 17-47): normalize and
absolutize both paths; if `start` does not occur in `path` as a raw
substring return `path`; otherwise strip the character-wise common prefix,
strip leading separators, split on the separator and drop `.` / resolve
`..` components, and rejoin. -/
def custom_relpath (P : Platform) (path start : List Char) : List Char :=
  let p := P.abspath (P.normpath path)
  let s := P.abspath (P.normpath start)
  if isSubstr s p then
    let relPath := (p.drop (commonPref p s).length).dropWhile (fun c => c = P.sep)
    joinSep P.sep (relCollapse (splitSep P.sep relPath))
  else p

/-- Model of `ntpath.basename` for driveless paths: the characters after
the last separator. -/
def basenameWin (p : List Char) : List Char :=
  p.foldl (fun acc c => if isSepW c then [] else acc ++ [c]) []

/-- Model of the root part of `os.path.splitext` on a separator-free file
name: split at the last `'.'`, unless every character before it is a
`'.'` (so `.bashrc` keeps its name). -/
def splitextStem (q : List Char) : List Char :=
  match q.reverse.findIdx? (fun c => c = '.') with
  | none => q
  | some i =>
    let dotIdx := q.length - 1 - i
    if (q.take dotIdx).all (fun c => c = '.') then q else q.take dotIdx

/-- Interpret a path string as a location: split on both separators and
drop empty segments (Windows treats repeated and trailing separators as
redundant). -/
def winSegs (p : List Char) : List Seg :=
  (splitSep '\\' (mangle p)).filter (fun s => !s.isEmpty)

/-- The canonical backslash-rooted path string for a segment list. -/
def mkPath (X : List Seg) : List Char := '\\' :: joinSep '\\' X

/-- The contents a file can hold: raw bytes, or the zip archive written by
stage 3 (recorded as its list of (archive name, data) entries). -/
inductive FContent where
  | raw : List Char → FContent
  | zipped : List (List Char × List Char) → FContent
deriving DecidableEq

/-- Abstract filesystem: the set of existing directories and the existing
files with their contents, keyed by canonical segment lists (locations
relative to the drive root). -/
structure FS where
  dirs : List (List Seg)
  files : List (List Seg × FContent)
deriving DecidableEq

/-- All nonempty prefixes of a location (the chain of directories
`os.makedirs` creates). -/
def prefixesNE (l : List Seg) : List (List Seg) :=
  (List.range l.length).map (fun i => l.take (i + 1))

/-- Model of `os.makedirs(p, exist_ok=True)`. -/
def makedirs (fs : FS) (p : List Char) : FS :=
  ⟨fs.dirs ++ prefixesNE (winSegs p), fs.files⟩

/-- Model of `os.path.exists` on the abstract filesystem (Windows
semantics: both separators accepted, trailing separators ignored). -/
def fsExists (fs : FS) (p : List Char) : Bool :=
  fs.dirs.any (fun d => d == winSegs p) || fs.files.any (fun f => f.1 == winSegs p)

/-- The look-up of a file's content at a location. -/
def fileAt (fs : FS) (k : List Seg) : Option FContent :=
  (fs.files.find? (fun f => f.1 == k)).map Prod.snd

/-- An input zip archive, abstracted to its directory entries and its file
entries (entry names are segment lists; data is raw bytes). -/
structure Archive where
  adirs : List (List Seg)
  afiles : List (List Seg × List Char)
deriving DecidableEq

/-- The three possible outcomes of `ZipFile(zip_file_name, 'r')` plus
`extractall`: the file is not a well-formed zip (`BadZipFile`), some other
I/O error carrying a message, or a successful parse of the archive. -/
inductive ZipRead where
  | badZip
  | ioErr : List Char → ZipRead
  | ok : Archive → ZipRead
deriving DecidableEq

/-- Model of `ZipFile.extractall(temp)`: every archive entry appears under
the extraction root, with all intermediate directories created. -/
def extractArchive (fs : FS) (temp : List Char) (a : Archive) : FS :=
  let T := winSegs temp
  ⟨fs.dirs ++ a.adirs.flatMap (fun d => prefixesNE (T ++ d))
           ++ a.afiles.flatMap (fun f => prefixesNE (T ++ f.1.dropLast)),
   fs.files ++ a.afiles.map (fun f => (T ++ f.1, FContent.raw f.2))⟩

/-- The raw bytes `ZipFile.write` reads from a source file. -/
def rawOf : FContent → List Char
  | .raw d => d
  | .zipped _ => []

/-- The `root` strings produced by `os.walk(top)`: the top directory
itself, then `join(root, subdir)` one level at a time. -/
def rootStrOf (top : List Char) (B : List Seg) : List Char := B.foldl joinWin top

/-- Model of the repacking loop (src/main.py lines 103-108): for every
regular file strictly below `app_dir`, one archive entry whose name is
`join(custom_relpath(root, app_dir), file)` and whose data is the file's
bytes. -/
def repackEntries (cwd : List Char) (fs : FS) (appDir : List Char) :
    List (List Char × List Char) :=
  let A := winSegs appDir
  (fs.files.filter (fun f => A.isPrefixOf f.1 && decide (A.length < f.1.length))).map
    (fun f =>
      let sub := f.1.drop A.length
      (joinWin (custom_relpath (winPlat cwd) (rootStrOf appDir sub.dropLast) appDir)
         (sub.getLast?.getD []),
       rawOf f.2))

/-- Model of `ZipFile(target_zip_name, 'w')` plus the write loop: the
target file is created (overwriting any previous file at that location)
holding the repacked entries. -/
def writeTarget (cwd : List Char) (fs : FS) (target appDir : List Char) : FS :=
  ⟨fs.dirs,
   (fs.files.filter (fun f => !(f.1 == winSegs target)))
     ++ [(winSegs target, FContent.zipped (repackEntries cwd fs appDir))]⟩

/-- Embedding of `_cleanup_temp_dir` (lines 134-144): on success the whole
subtree below (and including) the temp directory is removed; on an
unrecoverable filesystem error nothing changes and the error is only
logged (the exception is caught inside the helper). -/
def cleanupFS (fs : FS) (p : List Char) (ok : Bool) : FS :=
  if ok then
    ⟨fs.dirs.filter (fun d => !((winSegs p).isPrefixOf d)),
     fs.files.filter (fun f => !((winSegs p).isPrefixOf f.1))⟩
  else fs

/-- What the progress callback does when invoked: return normally, raise
`RuntimeError` (the Qt "underlying C++ object deleted" error raised when
the invoking UI has been torn down), or raise some other exception whose
`str` is the given message.  The behaviour may depend on how many times
the callback has been invoked before. -/
inductive CbRes where
  | ok
  | raiseRuntime
  | raiseOther : List Char → CbRes
deriving DecidableEq

/-- A progress event: the (percent, message) pair the callback was
invoked with. -/
abbrev Event := Nat × List Char

/-- Embedding of `_update_progress` (lines 125-131): if a callback is
present it is invoked; a `RuntimeError` it raises is swallowed (`except
RuntimeError: pass`); any other exception propagates to the caller.
Returns the invocations made, the next invocation index, and the
propagating exception, if any. -/
def updateProgress (cb : Option (Nat → CbRes)) (idx : Nat) (v : Nat)
    (m : List Char) : List Event × Nat × Option (List Char) :=
  match cb with
  | none => ([], idx, none)
  | some b =>
    match b idx with
    | .ok => ([(v, m)], idx + 1, none)
    | .raiseRuntime => ([(v, m)], idx + 1, none)
    | .raiseOther e => ([(v, m)], idx + 1, some e)

/-- What a call to `convert_exe_to_sb3` can do in Python: return a
boolean, or let an exception (carrying its `str`) escape. -/
inductive PyResult where
  | ret : Bool → PyResult
  | raised : List Char → PyResult
deriving DecidableEq

/-- The observable outcome of one call: result, the progress-callback
invocations in order, and the final filesystem. -/
structure ConvOut where
  result : PyResult
  events : List Event
  fs : FS
deriving DecidableEq

/-- Prepend already-emitted events to an outcome. -/
def ConvOut.withPre (o : ConvOut) (pre : List Event) : ConvOut :=
  ⟨o.result, pre ++ o.events, o.fs⟩

/-- The inputs of one `convert_exe_to_sb3` call, together with the
abstracted environment behaviour: how reading the input archive goes,
whether the stage-3 write fails (with which message), and whether the
stage-4 cleanup succeeds. -/
structure ConvIn where
  zfn : List Char
  outDir : List Char
  cb : Option (Nat → CbRes)
  zipRead : ZipRead
  writeErr : Option (List Char)
  cleanupOk : Bool

def msgExtract : List Char := chars "正在解压文件..."
def msgBadZip : List Char := chars "错误：无效的ZIP文件格式"
def msgMissPre : List Char := chars "错误：缺少资源目录 "
def msgPack : List Char := chars "正在打包SB3文件..."
def msgClean : List Char := chars "正在清理临时文件..."
def msgDone : List Char := chars "转换完成！"
def msgUnexpPre : List Char := chars "未预期错误："
def msgWritePre : List Char := chars "写入错误："

/-- `temp_dir` as computed on line 64. -/
def tempDirOf (outDir : List Char) : List Char := joinWin outDir (chars "temp_extract")

/-- The output archive name `<stem>.sb3` (line 63). -/
def sb3Name (zfn : List Char) : List Char :=
  splitextStem (basenameWin zfn) ++ chars ".sb3"

/-- `target_zip_name` as computed on line 63. -/
def targetOf (zfn outDir : List Char) : List Char := joinWin outDir (sb3Name zfn)

/-- `app_dir` as computed on lines 80-93: the separator-mangled workspace
path joined with `packaged-project/resources/app`, plus a trailing `'\'`. -/
def appDirOf (outDir : List Char) : List Char :=
  joinWin (joinWin (joinWin (mangle (tempDirOf outDir)) (chars "packaged-project"))
    (chars "resources")) (chars "app") ++ ['\\']

/-- Embedding of the outer `except Exception` handler (lines 120-122):
report a 0% "unexpected error" event and return `False`; if the progress
callback itself raises a non-`RuntimeError` exception during that report,
the new exception escapes the function. -/
def outerCatch (cb : Option (Nat → CbRes)) (idx : Nat) (emsg : List Char)
    (fs : FS) : ConvOut :=
  let u := updateProgress cb idx 0 (msgUnexpPre ++ emsg)
  match u.2.2 with
  | some e => ⟨.raised e, u.1, fs⟩
  | none => ⟨.ret false, u.1, fs⟩

/-- Embedding of `convert_exe_to_sb3` (src/main.py lines 50-122),
stage by stage, threading the filesystem, the emitted events and the
callback invocation index; every raise inside the `try` body transfers
control to `outerCatch`. -/
def convert_exe_to_sb3 (cwd : List Char) (inp : ConvIn) (fs0 : FS) : ConvOut :=
  let target := targetOf inp.zfn inp.outDir
  let tempDir := tempDirOf inp.outDir
  let fs1 := makedirs fs0 tempDir
  let u1 := updateProgress inp.cb 0 10 msgExtract
  match u1.2.2 with
  | some e => (outerCatch inp.cb u1.2.1 e fs1).withPre u1.1
  | none =>
    match inp.zipRead with
    | .badZip =>
      let u2 := updateProgress inp.cb u1.2.1 0 msgBadZip
      match u2.2.2 with
      | some e => (outerCatch inp.cb u2.2.1 e fs1).withPre (u1.1 ++ u2.1)
      | none => ⟨.ret false, u1.1 ++ u2.1, fs1⟩
    | .ioErr m => (outerCatch inp.cb u1.2.1 m fs1).withPre u1.1
    | .ok arch =>
      let fs2 := extractArchive fs1 tempDir arch
      let appDir := appDirOf inp.outDir
      if fsExists fs2 appDir then
        let u3 := updateProgress inp.cb u1.2.1 50 msgPack
        match u3.2.2 with
        | some e => (outerCatch inp.cb u3.2.1 e fs2).withPre (u1.1 ++ u3.1)
        | none =>
          match inp.writeErr with
          | some m =>
            let u4 := updateProgress inp.cb u3.2.1 0 (msgWritePre ++ m)
            match u4.2.2 with
            | some e => (outerCatch inp.cb u4.2.1 e fs2).withPre (u1.1 ++ u3.1 ++ u4.1)
            | none => ⟨.ret false, u1.1 ++ u3.1 ++ u4.1, fs2⟩
          | none =>
            let fs3 := writeTarget cwd fs2 target appDir
            let u5 := updateProgress inp.cb u3.2.1 80 msgClean
            match u5.2.2 with
            | some e => (outerCatch inp.cb u5.2.1 e fs3).withPre (u1.1 ++ u3.1 ++ u5.1)
            | none =>
              let fs4 := cleanupFS fs3 (mangle tempDir) inp.cleanupOk
              let u6 := updateProgress inp.cb u5.2.1 100 msgDone
              match u6.2.2 with
              | some e =>
                (outerCatch inp.cb u6.2.1 e fs4).withPre (u1.1 ++ u3.1 ++ u5.1 ++ u6.1)
              | none => ⟨.ret true, u1.1 ++ u3.1 ++ u5.1 ++ u6.1, fs4⟩
      else
        let u2 := updateProgress inp.cb u1.2.1 0 (msgMissPre ++ appDir)
        match u2.2.2 with
        | some e => (outerCatch inp.cb u2.2.1 e fs2).withPre (u1.1 ++ u2.1)
        | none => ⟨.ret false, u1.1 ++ u2.1, fs2⟩

/-- A well-formed file/directory name: nonempty, not a dot-component, and
free of separator and drive characters. -/
def wfSeg (s : Seg) : Prop :=
  s ≠ [] ∧ s ≠ ['.'] ∧ s ≠ ['.', '.'] ∧ ∀ c ∈ s, isSepW c = false ∧ c ≠ ':'

/-- All segments well formed. -/
def wfSegs (X : List Seg) : Prop := ∀ s ∈ X, wfSeg s

instance (s : Seg) : Decidable (wfSeg s) := by
  unfold wfSeg
  infer_instance

instance (X : List Seg) : Decidable (wfSegs X) := by
  unfold wfSegs
  infer_instance

/-- The expected layout `packaged-project/resources/app` as segments. -/
def pppSegs : List Seg := [chars "packaged-project", chars "resources", chars "app"]

/-- Decidable check that a percent sequence never decreases. -/
def nondecr : List Nat → Bool
  | [] => true
  | [_] => true
  | a :: b :: t => decide (a ≤ b) && nondecr (b :: t)

/-- A callback behaviour that never raises anything but `RuntimeError`. -/
def cbSafe : Option (Nat → CbRes) → Prop
  | none => True
  | some b => ∀ n e, b n ≠ CbRes.raiseOther e

/-- Sample empty filesystem for concrete runs. -/
def sampleFS : FS := ⟨[], []⟩

/-- Sample working directory for concrete runs. -/
def sampleCwd : List Char := chars "\\cwd"

/-- Sample well-formed input archive with the expected layout. -/
def sampleArch : Archive :=
  ⟨[[chars "packaged-project"], [chars "packaged-project", chars "resources"],
    [chars "packaged-project", chars "resources", chars "app"]],
   [([chars "packaged-project", chars "resources", chars "app", chars "project.json"],
     chars "DATA"),
    ([chars "packaged-project", chars "resources", chars "app", chars "assets",
      chars "a.png"], chars "PNG")]⟩

/-- Sample archive with no `packaged-project/resources/app` layout. -/
def sampleArchBad : Archive := ⟨[[chars "stuff"]], [([chars "readme.txt"], chars "X")]⟩

/-- The result of a conversion as determined by the environment alone
(which the callback, as long as it raises nothing but `RuntimeError`,
cannot influence): failure on a bad or unreadable archive, on a missing
resource directory and on a write error; success otherwise. -/
def resultOf (inp : ConvIn) (fs0 : FS) : PyResult :=
  match inp.zipRead with
  | ZipRead.badZip => PyResult.ret false
  | ZipRead.ioErr _ => PyResult.ret false
  | ZipRead.ok arch =>
    if fsExists (extractArchive (makedirs fs0 (tempDirOf inp.outDir))
        (tempDirOf inp.outDir) arch) (appDirOf inp.outDir) then
      match inp.writeErr with
      | some _ => PyResult.ret false
      | none => PyResult.ret true
    else PyResult.ret false

/-- A concrete conversion input for concrete runs: fixed input/output
paths, a given callback and archive-read outcome, no write error,
successful cleanup. -/
def sampleIn (cb : Option (Nat → CbRes)) (zr : ZipRead) : ConvIn :=
  ⟨chars "\\in\\a.zip", chars "\\out", cb, zr, none, true⟩

/-! ### Basic properties of the string primitives -/

theorem mangle_mangle (p : List Char) : mangle (mangle p) = mangle p := by
  simp only [mangle, List.map_map]
  apply List.map_congr_left
  intro c _
  by_cases h : c = '/' <;> simp [h]

theorem mangle_eq_self {p : List Char} (h : '/' ∉ p) : mangle p = p := by
  simp only [mangle]
  conv_rhs => rw [← List.map_id p]
  apply List.map_congr_left
  intro c hc
  have hc' : c ≠ '/' := fun hh => h (hh ▸ hc)
  simp [hc']

theorem winSegs_mangle (p : List Char) : winSegs (mangle p) = winSegs p := by
  simp [winSegs, mangle_mangle]

theorem splitSep_ne_nil (c : Char) (l : List Char) : splitSep c l ≠ [] := by
  induction l with
  | nil => simp [splitSep]
  | cons x xs ih =>
    simp only [splitSep]
    by_cases h : x = c
    · simp [h]
    · simp only [h, if_false]
      cases hs : splitSep c xs <;> simp

theorem not_mem_splitSep {c : Char} {l s : List Char} (hs : s ∈ splitSep c l) :
    c ∉ s := by
  induction l generalizing s with
  | nil =>
    simp only [splitSep, List.mem_singleton] at hs
    simp [hs]
  | cons x xs ih =>
    simp only [splitSep] at hs
    by_cases h : x = c
    · simp only [h, if_true, List.mem_cons] at hs
      rcases hs with rfl | hs
      · simp
      · exact ih hs
    · simp only [h, if_false] at hs
      cases hsx : splitSep c xs with
      | nil => exact absurd hsx (splitSep_ne_nil c xs)
      | cons hh tt =>
        rw [hsx] at hs
        rcases List.mem_cons.mp hs with rfl | hmem
        · intro hc
          rcases List.mem_cons.mp hc with rfl | hc2
          · exact h rfl
          · exact ih (hsx ▸ List.mem_cons_self hh tt) hc2
        · exact ih (hsx ▸ List.mem_cons_of_mem hh hmem)

theorem joinSep_cons (c : Char) (s : List Char) {t : List (List Char)}
    (ht : t ≠ []) : joinSep c (s :: t) = s ++ c :: joinSep c t := by
  cases t with
  | nil => exact absurd rfl ht
  | cons a u => rfl

theorem joinSep_append (c : Char) {A B : List (List Char)} (hA : A ≠ [])
    (hB : B ≠ []) : joinSep c (A ++ B) = joinSep c A ++ c :: joinSep c B := by
  induction A with
  | nil => exact absurd rfl hA
  | cons s A' ih =>
    cases A' with
    | nil =>
      simp only [List.nil_append, List.singleton_append]
      rw [joinSep_cons c s hB]
      rfl
    | cons s2 A'' =>
      have hA' : s2 :: A'' ≠ [] := by simp
      rw [List.cons_append, joinSep_cons c s (by simp),
        joinSep_cons c s hA', ih hA']
      simp

theorem splitSep_single {c : Char} {s : List Char} (h : c ∉ s) :
    splitSep c s = [s] := by
  induction s with
  | nil => rfl
  | cons x xs ih =>
    have hx : x ≠ c := fun hh => h (hh ▸ List.mem_cons_self x xs)
    have hxs : c ∉ xs := fun hh => h (List.mem_cons_of_mem x hh)
    simp only [splitSep, hx, if_false, ih hxs]

theorem splitSep_sep_mid (c : Char) (l r : List Char) :
    splitSep c (l ++ c :: r) = splitSep c l ++ splitSep c r := by
  induction l with
  | nil => simp [splitSep]
  | cons x l' ih =>
    by_cases hx : x = c
    · simp only [List.cons_append, splitSep, hx, if_true, List.append_eq, ih,
        List.cons_append]
    · simp only [List.cons_append, splitSep, hx, if_false, List.append_eq, ih]
      cases hs : splitSep c l' with
      | nil => exact absurd hs (splitSep_ne_nil c l')
      | cons h t => simp [hs]

theorem splitSep_joinSep {c : Char} {L : List (List Char)}
    (h : ∀ s ∈ L, c ∉ s) (hL : L ≠ []) : splitSep c (joinSep c L) = L := by
  induction L with
  | nil => exact absurd rfl hL
  | cons s L' ih =>
    cases L' with
    | nil => exact splitSep_single (h s (List.mem_cons_self s []))
    | cons s2 L'' =>
      rw [joinSep_cons c s (by simp), splitSep_sep_mid,
        splitSep_single (h s (List.mem_cons_self _ _)),
        ih (fun x hx => h x (List.mem_cons_of_mem s hx)) (by simp)]
      simp

theorem commonPref_append_self (s t : List Char) : commonPref (s ++ t) s = s := by
  induction s with
  | nil => cases t <;> rfl
  | cons a as ih => simp [commonPref, ih]

theorem isSubstr_of_isPrefixOf {s p : List Char} (h : s.isPrefixOf p = true) :
    isSubstr s p = true := by
  simp only [isSubstr, List.any_eq_true]
  exact ⟨p, (List.mem_tails p p).mpr (List.suffix_refl p), h⟩

theorem isPrefixOf_append_self (l t : List Char) :
    l.isPrefixOf (l ++ t) = true :=
  List.isPrefixOf_iff_prefix.mpr (List.prefix_append l t)

theorem mem_joinSep {c c' : Char} {L : List (List Char)}
    (h : c' ∈ joinSep c L) : c' = c ∨ ∃ s ∈ L, c' ∈ s := by
  induction L with
  | nil => simp [joinSep] at h
  | cons s L' ih =>
    cases L' with
    | nil =>
      simp only [joinSep] at h
      exact Or.inr ⟨s, List.mem_cons_self s [], h⟩
    | cons s2 L'' =>
      rw [joinSep_cons c s (by simp)] at h
      rcases List.mem_append.mp h with hs | hrest
      · exact Or.inr ⟨s, List.mem_cons_self _ _, hs⟩
      · rcases List.mem_cons.mp hrest with rfl | hj
        · exact Or.inl rfl
        · rcases ih hj with rfl | ⟨x, hx, hcx⟩
          · exact Or.inl rfl
          · exact Or.inr ⟨x, List.mem_cons_of_mem s hx, hcx⟩

/-! ### Well-formed rooted paths -/

theorem wfSeg_no_slash {s : Seg} (h : wfSeg s) : '/' ∉ s := by
  intro hc
  have := (h.2.2.2 '/' hc).1
  simp [isSepW] at this

theorem wfSeg_no_bslash {s : Seg} (h : wfSeg s) : '\\' ∉ s := by
  intro hc
  have := (h.2.2.2 '\\' hc).1
  simp [isSepW] at this

theorem mkPath_no_slash {X : List Seg} (h : wfSegs X) : '/' ∉ mkPath X := by
  intro hc
  simp only [mkPath, List.mem_cons] at hc
  rcases hc with h1 | h2
  · exact absurd h1 (by decide)
  · rcases mem_joinSep h2 with h3 | ⟨s, hs, hcs⟩
    · exact absurd h3 (by decide)
    · exact wfSeg_no_slash (h s hs) hcs

theorem mangle_mkPath {X : List Seg} (h : wfSegs X) :
    mangle (mkPath X) = mkPath X :=
  mangle_eq_self (mkPath_no_slash h)

theorem joinSep_head {X : List Seg} (h : wfSegs X) (hX : X ≠ []) :
    ∃ c₀ r, joinSep '\\' X = c₀ :: r ∧ isSepW c₀ = false ∧ c₀ ≠ ':' := by
  cases X with
  | nil => exact absurd rfl hX
  | cons s X' =>
    have hs := h s (List.mem_cons_self s X')
    obtain ⟨c₀, s', rfl⟩ : ∃ c₀ s', s = c₀ :: s' := by
      cases s with
      | nil => exact absurd rfl hs.1
      | cons a b => exact ⟨a, b, rfl⟩
    have hc := hs.2.2.2 c₀ (List.mem_cons_self c₀ s')
    cases X' with
    | nil => exact ⟨c₀, s', rfl, hc.1, hc.2⟩
    | cons s2 X'' =>
      refine ⟨c₀, s' ++ '\\' :: joinSep '\\' (s2 :: X''), ?_, hc.1, hc.2⟩
      rw [joinSep_cons '\\' _ (by simp)]
      simp

theorem joinSep_getLast {X : List Seg} (h : wfSegs X) (hX : X ≠ []) :
    ∃ a, (joinSep '\\' X).getLast? = some a ∧ isSepW a = false ∧ a ≠ ':' := by
  induction X with
  | nil => exact absurd rfl hX
  | cons s X' ih =>
    have hs := h s (List.mem_cons_self s X')
    cases X' with
    | nil =>
      obtain ⟨a, ha⟩ := Option.isSome_iff_exists.mp (List.getLast?_isSome.mpr hs.1)
      have hmem : a ∈ s := List.mem_of_mem_getLast? (by simp [ha])
      have hca := hs.2.2.2 a hmem
      exact ⟨a, ha, hca.1, hca.2⟩
    | cons s2 X'' =>
      obtain ⟨a, ha, h1, h2⟩ :=
        ih (fun x hx => h x (List.mem_cons_of_mem s hx)) (by simp)
      refine ⟨a, ?_, h1, h2⟩
      rw [joinSep_cons '\\' _ (by simp),
        show ('\\' : Char) :: joinSep '\\' (s2 :: X'')
          = ['\\'] ++ joinSep '\\' (s2 :: X'') from rfl,
        ← List.append_assoc, List.getLast?_append, ha]
      rfl

theorem mkPath_getLast {X : List Seg} (h : wfSegs X) (hX : X ≠ []) :
    ∃ a, (mkPath X).getLast? = some a ∧ isSepW a = false ∧ a ≠ ':' := by
  obtain ⟨a, ha, h1, h2⟩ := joinSep_getLast h hX
  refine ⟨a, ?_, h1, h2⟩
  rw [show mkPath X = ['\\'] ++ joinSep '\\' X from rfl, List.getLast?_append, ha]
  rfl


theorem joinWin_mkPath {X : List Seg} {s : Seg} (hX : wfSegs X) (hs : wfSeg s) :
    joinWin (mkPath X) s = mkPath (X ++ [s]) := by
  obtain ⟨c₀, s', rfl⟩ : ∃ c₀ s', s = c₀ :: s' := by
    cases s with
    | nil => exact absurd rfl hs.1
    | cons a b => exact ⟨a, b, rfl⟩
  have hc := hs.2.2.2 c₀ (List.mem_cons_self c₀ s')
  have hb : (((c₀ :: s').head?).map isSepW).getD false = false := by
    simp [hc.1]
  have hcc : ¬c₀ = '\\' ∧ ¬c₀ = '/' := by
    have h' := hc.1
    simp only [isSepW, Bool.or_eq_false_iff, decide_eq_false_iff_not] at h'
    exact h'
  cases X with
  | nil => simp [joinWin, hb, mkPath, joinSep, isSepW, hcc.1, hcc.2]
  | cons x X' =>
    obtain ⟨a, ha, h1, h2⟩ := mkPath_getLast hX (by simp)
    have hlast : ((mkPath (x :: X')).getLast?.map
        (fun c => isSepW c || c = ':')).getD false = false := by
      rw [ha]
      simp [h1, h2]
    have hanil : mkPath (x :: X') ≠ [] := by simp [mkPath]
    simp only [joinWin, hb, Bool.false_eq_true, if_false, hanil, hlast]
    rw [mkPath, mkPath, joinSep_append '\\' (by simp) (by simp)]
    simp [joinSep]

theorem filter_nonempty_eq {X : List Seg} (h : ∀ s ∈ X, s ≠ []) :
    X.filter (fun s => !s.isEmpty) = X := by
  apply List.filter_eq_self.mpr
  intro s hsm
  simpa using h s hsm

theorem winSegs_mkPath_gen {X : List Seg} (h : wfSegs X) {t : List Char}
    (ht : t = [] ∨ t = ['\\']) : winSegs (mkPath X ++ t) = X := by
  have hnos : '/' ∉ mkPath X ++ t := by
    intro hc
    rcases List.mem_append.mp hc with h1 | h2
    · exact mkPath_no_slash h h1
    · rcases ht with rfl | rfl
      · simp at h2
      · simp only [List.mem_singleton] at h2
        exact absurd h2 (by decide)
  simp only [winSegs, mangle_eq_self hnos]
  by_cases hXe : X = []
  · subst hXe
    rcases ht with rfl | rfl <;> rfl
  · have hnb : ∀ s ∈ X, '\\' ∉ s := fun s hsm => wfSeg_no_bslash (h s hsm)
    have hne : ∀ s ∈ X, s ≠ [] := fun s hsm => (h s hsm).1
    rw [show mkPath X ++ t = '\\' :: (joinSep '\\' X ++ t) from by simp [mkPath]]
    rcases ht with rfl | rfl
    · rw [List.append_nil,
        show splitSep '\\' ('\\' :: joinSep '\\' X)
          = [] :: splitSep '\\' (joinSep '\\' X) from by simp [splitSep],
        splitSep_joinSep hnb hXe, List.filter_cons]
      simp only [List.isEmpty_nil, Bool.not_true, Bool.false_eq_true, if_false]
      exact filter_nonempty_eq hne
    · rw [show ('\\' : Char) :: (joinSep '\\' X ++ ['\\'])
          = '\\' :: (joinSep '\\' X ++ '\\' :: []) from rfl,
        show splitSep '\\' ('\\' :: (joinSep '\\' X ++ '\\' :: []))
          = [] :: splitSep '\\' (joinSep '\\' X ++ '\\' :: []) from by simp [splitSep],
        splitSep_sep_mid, splitSep_joinSep hnb hXe,
        show splitSep '\\' ([] : List Char) = [[]] from rfl,
        List.filter_cons, List.filter_append]
      simp only [List.isEmpty_nil, Bool.not_true, Bool.false_eq_true, if_false,
        List.filter_cons, List.filter_nil, List.append_nil]
      exact filter_nonempty_eq hne

theorem winSegs_mkPath_snoc {X : List Seg} (hX : wfSegs X) {s : List Char}
    (hs : s ≠ []) (hsep : ∀ c ∈ s, isSepW c = false) :
    winSegs (mkPath X ++ '\\' :: s) = X ++ [s] := by
  have hnos : '/' ∉ mkPath X ++ '\\' :: s := by
    intro hc
    rcases List.mem_append.mp hc with h1 | h2
    · exact mkPath_no_slash hX h1
    · rcases List.mem_cons.mp h2 with h3 | h4
      · exact absurd h3 (by decide)
      · have := hsep '/' h4
        simp [isSepW] at this
  have hnbs : '\\' ∉ s := by
    intro hc
    have := hsep '\\' hc
    simp [isSepW] at this
  simp only [winSegs, mangle_eq_self hnos]
  rw [show mkPath X ++ '\\' :: s = '\\' :: (joinSep '\\' X ++ '\\' :: s) from by
      simp [mkPath],
    show splitSep '\\' ('\\' :: (joinSep '\\' X ++ '\\' :: s))
      = [] :: splitSep '\\' (joinSep '\\' X ++ '\\' :: s) from by simp [splitSep],
    splitSep_sep_mid, splitSep_single hnbs]
  by_cases hXe : X = []
  · subst hXe
    simp [joinSep, splitSep, List.filter_cons, hs]
  · have hnb : ∀ u ∈ X, '\\' ∉ u := fun u hu => wfSeg_no_bslash (hX u hu)
    have hne : ∀ u ∈ X, u ≠ [] := fun u hu => (hX u hu).1
    rw [splitSep_joinSep hnb hXe, List.filter_cons, List.filter_append]
    simp only [List.isEmpty_nil, Bool.not_true, Bool.false_eq_true, if_false,
      List.filter_cons, List.filter_nil]
    rw [filter_nonempty_eq hne]
    simp [hs]

/-! ### `ntpath.normpath` / `abspath` on canonical rooted paths -/

theorem splitdriveWin_single {c₀ : Char} {r : List Char} (hc : c₀ ≠ '\\')
    (hcc : c₀ ≠ ':') : splitdriveWin ('\\' :: c₀ :: r) = ([], '\\' :: c₀ :: r) := by
  simp [splitdriveWin, hc, hcc]

theorem collapseNT_clean {L : List Seg}
    (h : ∀ s ∈ L, s ≠ ['.'] ∧ s ≠ ['.', '.']) (rooted : Bool) :
    collapseNT rooted L = L.filter (fun s => !s.isEmpty) := by
  suffices hgen : ∀ acc : List Seg,
      L.foldl (fun acc comp =>
        if comp = [] ∨ comp = ['.'] then acc
        else if comp = ['.', '.'] then
          if acc ≠ [] ∧ acc.getLast? ≠ some ['.', '.'] then acc.dropLast
          else if acc = [] ∧ rooted then acc
          else acc ++ [comp]
        else acc ++ [comp]) acc = acc ++ L.filter (fun s => !s.isEmpty) by
    exact hgen []
  induction L with
  | nil => intro acc; simp
  | cons s L' ih =>
    intro acc
    have hs := h s (List.mem_cons_self s L')
    have ih' := ih (fun x hx => h x (List.mem_cons_of_mem s hx))
    by_cases hse : s = []
    · subst hse
      simp only [List.foldl_cons, if_pos (Or.inl rfl), ih', List.filter_cons]
      simp
    · have hcond : ¬(s = [] ∨ s = ['.']) := by
        rintro (h1 | h2)
        · exact hse h1
        · exact hs.1 h2
      simp only [List.foldl_cons, if_neg hcond, if_neg hs.2, ih', List.filter_cons]
      have : (!s.isEmpty) = true := by
        simp [List.isEmpty_iff, hse]
      rw [this]
      simp

theorem normpathWin_mkPath_gen {X : List Seg} (h : wfSegs X) (hX : X ≠ [])
    {t : List Char} (ht : t = [] ∨ t = ['\\']) :
    normpathWin (mkPath X ++ t) = mkPath X := by
  have hnos : '/' ∉ mkPath X ++ t := by
    intro hc
    rcases List.mem_append.mp hc with h1 | h2
    · exact mkPath_no_slash h h1
    · rcases ht with rfl | rfl
      · simp at h2
      · simp only [List.mem_singleton] at h2
        exact absurd h2 (by decide)
  obtain ⟨c₀, r, hjs, hc1, hc2⟩ := joinSep_head h hX
  have hcbs : c₀ ≠ '\\' := by
    intro hh
    rw [hh] at hc1
    simp [isSepW] at hc1
  have hshape : mkPath X ++ t = '\\' :: c₀ :: (r ++ t) := by
    simp [mkPath, hjs]
  have hm : mangle ('\\' :: c₀ :: (r ++ t)) = '\\' :: c₀ :: (r ++ t) := by
    rw [← hshape]
    exact mangle_eq_self hnos
  simp only [normpathWin, hshape, hm,
    splitdriveWin_single hcbs hc2, List.head?_cons, Option.some.injEq,
    if_pos rfl, List.nil_append]
  simp only [if_true]
  rw [show List.dropWhile (fun c => c = '\\') ('\\' :: c₀ :: (r ++ t))
      = c₀ :: (r ++ t) from by
    simp only [List.dropWhile_cons]
    simp [hcbs]]
  have hback : c₀ :: (r ++ t) = joinSep '\\' X ++ t := by
    simp [hjs]
  rw [hback]
  have hclean : ∀ s ∈ X, s ≠ ['.'] ∧ s ≠ ['.', '.'] :=
    fun s hsm => ⟨(h s hsm).2.1, (h s hsm).2.2.1⟩
  have hnb : ∀ s ∈ X, '\\' ∉ s := fun s hsm => wfSeg_no_bslash (h s hsm)
  have hsplit : splitSep '\\' (joinSep '\\' X ++ t) = splitSep '\\' (joinSep '\\' X) ++ (if t = [] then [] else [[]]) := by
    rcases ht with rfl | rfl
    · simp
    · rw [show joinSep '\\' X ++ ['\\'] = joinSep '\\' X ++ '\\' :: [] from rfl,
        splitSep_sep_mid]
      simp [splitSep]
  rw [hsplit, splitSep_joinSep hnb hX]
  have hfilterX := filter_nonempty_eq (fun s hsm => (h s hsm).1)
  have hcleanall : ∀ s ∈ X ++ (if t = [] then [] else [[]]),
      s ≠ ['.'] ∧ s ≠ ['.', '.'] := by
    intro s hsm
    rcases List.mem_append.mp hsm with h1 | h2
    · exact hclean s h1
    · rcases ht with rfl | rfl
      · simp at h2
      · simp only [if_neg (by simp : ¬(['\\'] : List Char) = []),
          List.mem_singleton] at h2
        subst h2
        exact ⟨by simp, by simp⟩
  rw [collapseNT_clean hcleanall, List.filter_append, hfilterX]
  have hrest : (if t = [] then ([] : List (List Char)) else [[]]).filter
      (fun s => !s.isEmpty) = [] := by
    rcases ht with rfl | rfl <;> simp
  rw [hrest, List.append_nil,
    if_neg (show ¬((['\\'] : List Char) = [] ∧ X = []) from by simp)]
  rfl

theorem isAbsWin_mkPath {X : List Seg} (h : wfSegs X) (hX : X ≠ []) :
    isAbsWin (mkPath X) = true := by
  obtain ⟨c₀, r, hjs, hc1, hc2⟩ := joinSep_head h hX
  have hcbs : c₀ ≠ '\\' := by
    intro hh
    rw [hh] at hc1
    simp [isSepW] at hc1
  have hshape : mkPath X = '\\' :: c₀ :: r := by simp [mkPath, hjs]
  have hm : mangle ('\\' :: c₀ :: r) = '\\' :: c₀ :: r := by
    rw [← hshape]
    exact mangle_mkPath h
  simp only [isAbsWin, hshape, hm, splitdriveWin_single hcbs hc2]
  simp [isSepW]

theorem abspathWin_mkPath {cwd : List Char} {X : List Seg} (h : wfSegs X)
    (hX : X ≠ []) : abspathWin cwd (mkPath X) = mkPath X := by
  have h0 : normpathWin (mkPath X) = mkPath X := by
    have h1 := normpathWin_mkPath_gen h hX (Or.inl rfl)
    rwa [List.append_nil] at h1
  simp only [abspathWin]
  rw [if_pos (by simp [isAbsWin_mkPath h hX]), h0]

/-! ### `custom_relpath` on the walk roots of a well-formed workspace -/

theorem isPrefixOf_self (l : List Char) : l.isPrefixOf l = true := by
  have h := isPrefixOf_append_self l []
  rwa [List.append_nil] at h

theorem commonPref_self (s : List Char) : commonPref s s = s := by
  have h := commonPref_append_self s []
  rwa [List.append_nil] at h

theorem wfSegs_append {A B : List Seg} (hA : wfSegs A) (hB : wfSegs B) :
    wfSegs (A ++ B) := by
  intro s hs
  rcases List.mem_append.mp hs with h1 | h2
  · exact hA s h1
  · exact hB s h2

theorem rootStrOf_mk {A B : List Seg} (hA : wfSegs A) (hB : wfSegs B) :
    rootStrOf (mkPath A) B = mkPath (A ++ B) := by
  induction B generalizing A with
  | nil => simp [rootStrOf]
  | cons b B' ih =>
    have hb : wfSeg b := hB b (List.mem_cons_self b B')
    have hB' : wfSegs B' := fun s hs => hB s (List.mem_cons_of_mem b hs)
    have hAb : wfSegs (A ++ [b]) :=
      wfSegs_append hA (fun s hs => by
        rcases List.mem_singleton.mp hs with rfl
        exact hb)
    rw [show rootStrOf (mkPath A) (b :: B')
        = rootStrOf (joinWin (mkPath A) b) B' from rfl,
      joinWin_mkPath hA hb, ih hAb hB']
    simp

theorem rootStrOf_sep {A B : List Seg} (hA : wfSegs A) (hAne : A ≠ [])
    (hB : wfSegs B) (hBne : B ≠ []) :
    rootStrOf (mkPath A ++ ['\\']) B = mkPath (A ++ B) := by
  cases B with
  | nil => exact absurd rfl hBne
  | cons b B' =>
    have hb : wfSeg b := hB b (List.mem_cons_self b B')
    have hB' : wfSegs B' := fun s hs => hB s (List.mem_cons_of_mem b hs)
    obtain ⟨c₀, b', rfl⟩ : ∃ c₀ b', b = c₀ :: b' := by
      cases b with
      | nil => exact absurd rfl hb.1
      | cons x y => exact ⟨x, y, rfl⟩
    have hc := hb.2.2.2 c₀ (List.mem_cons_self c₀ b')
    have h1 : joinWin (mkPath A ++ ['\\']) (c₀ :: b') = mkPath (A ++ [c₀ :: b']) := by
      simp only [joinWin, List.head?_cons, Option.map_some', Option.getD_some,
        hc.1, Bool.false_eq_true, if_false, List.getLast?_concat,
        List.append_assoc]
      rw [if_neg (by simp [mkPath]), if_pos (by simp [isSepW])]
      rw [show mkPath (A ++ [c₀ :: b'])
          = '\\' :: (joinSep '\\' A ++ '\\' :: (c₀ :: b')) from by
        rw [mkPath, joinSep_append '\\' hAne (by simp)]
        simp [joinSep]]
      simp [mkPath]
    have hAb : wfSegs (A ++ [c₀ :: b']) :=
      wfSegs_append hA (fun s hs => by
        rcases List.mem_singleton.mp hs with rfl
        exact hb)
    rw [show rootStrOf (mkPath A ++ ['\\']) ((c₀ :: b') :: B')
        = rootStrOf (joinWin (mkPath A ++ ['\\']) (c₀ :: b')) B' from rfl,
      h1, rootStrOf_mk hAb hB']
    simp

theorem relCollapse_clean {L : List Seg}
    (h : ∀ s ∈ L, s ≠ ['.'] ∧ s ≠ ['.', '.']) : relCollapse L = L := by
  suffices hgen : ∀ acc : List Seg,
      L.foldl (fun acc part =>
        if part = ['.', '.'] then acc.dropLast
        else if part = ['.'] then acc
        else acc ++ [part]) acc = acc ++ L by
    exact hgen []
  induction L with
  | nil => intro acc; simp
  | cons s L' ih =>
    intro acc
    have hs := h s (List.mem_cons_self s L')
    have ih' := ih (fun x hx => h x (List.mem_cons_of_mem s hx))
    simp only [List.foldl_cons, if_neg hs.2, if_neg hs.1, ih']
    simp

theorem custom_relpath_win_app (cwd : List Char) {A B : List Seg}
    (hA : wfSegs A) (hAne : A ≠ []) (hB : wfSegs B) :
    custom_relpath (winPlat cwd) (rootStrOf (mkPath A ++ ['\\']) B)
      (mkPath A ++ ['\\']) = joinSep '\\' B := by
  have hstart_norm : normpathWin (mkPath A ++ ['\\']) = mkPath A :=
    normpathWin_mkPath_gen hA hAne (Or.inr rfl)
  have hstart_abs : abspathWin cwd (mkPath A) = mkPath A :=
    abspathWin_mkPath hA hAne
  cases B with
  | nil =>
    simp only [custom_relpath, winPlat, rootStrOf, List.foldl_nil,
      hstart_norm, hstart_abs]
    rw [if_pos (by simp [isSubstr_of_isPrefixOf (isPrefixOf_self (mkPath A))]),
      commonPref_self, List.drop_length]
    rfl
  | cons b B' =>
    have hBne : (b :: B') ≠ [] := by simp
    have hAB : wfSegs (A ++ b :: B') := wfSegs_append hA hB
    have hABne : A ++ b :: B' ≠ [] := by simp [hAne]
    have hpath_norm : normpathWin (mkPath (A ++ b :: B')) = mkPath (A ++ b :: B') := by
      have h1 := normpathWin_mkPath_gen hAB hABne (Or.inl rfl)
      rwa [List.append_nil] at h1
    have hpath_abs : abspathWin cwd (mkPath (A ++ b :: B')) = mkPath (A ++ b :: B') :=
      abspathWin_mkPath hAB hABne
    have hdecomp : mkPath (A ++ b :: B') = mkPath A ++ '\\' :: joinSep '\\' (b :: B') := by
      rw [mkPath, joinSep_append '\\' hAne hBne]
      simp [mkPath]
    obtain ⟨c₀, r, hjs, hc1, hc2⟩ := joinSep_head hB hBne
    have hcbs : c₀ ≠ '\\' := by
      intro hh
      rw [hh] at hc1
      simp [isSepW] at hc1
    simp only [custom_relpath, winPlat, rootStrOf_sep hA hAne hB hBne,
      hstart_norm, hstart_abs, hpath_norm, hpath_abs]
    rw [if_pos (by
      rw [hdecomp]
      simp [isSubstr_of_isPrefixOf (isPrefixOf_append_self (mkPath A) _)])]
    rw [hdecomp, commonPref_append_self, List.drop_left]
    rw [show List.dropWhile (fun c => c = '\\') ('\\' :: joinSep '\\' (b :: B'))
        = joinSep '\\' (b :: B') from by
      rw [hjs]
      simp [List.dropWhile_cons, hcbs]]
    rw [splitSep_joinSep (fun s hs => wfSeg_no_bslash (hB s hs)) hBne,
      relCollapse_clean (fun s hs => ⟨(hB s hs).2.1, (hB s hs).2.2.1⟩)]

/-! ### Reductions of the conversion pipeline -/

@[simp] theorem withPre_result (o : ConvOut) (pre : List Event) :
    (o.withPre pre).result = o.result := rfl

@[simp] theorem withPre_events (o : ConvOut) (pre : List Event) :
    (o.withPre pre).events = pre ++ o.events := rfl

@[simp] theorem withPre_fs (o : ConvOut) (pre : List Event) :
    (o.withPre pre).fs = o.fs := rfl

theorem updateProgress_none (i v : Nat) (m : List Char) :
    updateProgress none i v m = ([], i, none) := rfl

theorem updateProgress_safe {b : Nat → CbRes}
    (hb : ∀ n e, b n ≠ CbRes.raiseOther e) (i v : Nat) (m : List Char) :
    updateProgress (some b) i v m = ([(v, m)], i + 1, none) := by
  cases hbi : b i with
  | ok => simp [updateProgress, hbi]
  | raiseRuntime => simp [updateProgress, hbi]
  | raiseOther e => exact absurd hbi (hb i e)

theorem outerCatch_none (i : Nat) (e : List Char) (fs : FS) :
    outerCatch none i e fs = ⟨PyResult.ret false, [], fs⟩ := rfl

theorem outerCatch_safe {b : Nat → CbRes}
    (hb : ∀ n e, b n ≠ CbRes.raiseOther e) (i : Nat) (e : List Char) (fs : FS) :
    outerCatch (some b) i e fs
      = ⟨PyResult.ret false, [(0, msgUnexpPre ++ e)], fs⟩ := by
  simp [outerCatch, updateProgress_safe hb]

theorem convert_badZip_shape {cwd : List Char} {inp : ConvIn} {fs0 : FS}
    {b : Nat → CbRes} (hcb : inp.cb = some b)
    (hb : ∀ n e, b n ≠ CbRes.raiseOther e) (hz : inp.zipRead = ZipRead.badZip) :
    convert_exe_to_sb3 cwd inp fs0 =
      ⟨PyResult.ret false, [(10, msgExtract), (0, msgBadZip)],
       makedirs fs0 (tempDirOf inp.outDir)⟩ := by
  simp [convert_exe_to_sb3, hcb, hz, updateProgress_safe hb]

theorem convert_ioErr_shape {cwd : List Char} {inp : ConvIn} {fs0 : FS}
    {b : Nat → CbRes} {m : List Char} (hcb : inp.cb = some b)
    (hb : ∀ n e, b n ≠ CbRes.raiseOther e) (hz : inp.zipRead = ZipRead.ioErr m) :
    convert_exe_to_sb3 cwd inp fs0 =
      ⟨PyResult.ret false, [(10, msgExtract), (0, msgUnexpPre ++ m)],
       makedirs fs0 (tempDirOf inp.outDir)⟩ := by
  simp [convert_exe_to_sb3, hcb, hz, updateProgress_safe hb, outerCatch_safe hb,
    ConvOut.withPre]

theorem convert_missing_shape {cwd : List Char} {inp : ConvIn} {fs0 : FS}
    {b : Nat → CbRes} {arch : Archive} (hcb : inp.cb = some b)
    (hb : ∀ n e, b n ≠ CbRes.raiseOther e) (hz : inp.zipRead = ZipRead.ok arch)
    (hex : fsExists (extractArchive (makedirs fs0 (tempDirOf inp.outDir))
      (tempDirOf inp.outDir) arch) (appDirOf inp.outDir) = false) :
    convert_exe_to_sb3 cwd inp fs0 =
      ⟨PyResult.ret false,
       [(10, msgExtract), (0, msgMissPre ++ appDirOf inp.outDir)],
       extractArchive (makedirs fs0 (tempDirOf inp.outDir))
         (tempDirOf inp.outDir) arch⟩ := by
  simp [convert_exe_to_sb3, hcb, hz, hex, updateProgress_safe hb]

theorem convert_writeErr_shape {cwd : List Char} {inp : ConvIn} {fs0 : FS}
    {b : Nat → CbRes} {arch : Archive} {m : List Char} (hcb : inp.cb = some b)
    (hb : ∀ n e, b n ≠ CbRes.raiseOther e) (hz : inp.zipRead = ZipRead.ok arch)
    (hex : fsExists (extractArchive (makedirs fs0 (tempDirOf inp.outDir))
      (tempDirOf inp.outDir) arch) (appDirOf inp.outDir) = true)
    (hwe : inp.writeErr = some m) :
    convert_exe_to_sb3 cwd inp fs0 =
      ⟨PyResult.ret false,
       [(10, msgExtract), (50, msgPack), (0, msgWritePre ++ m)],
       extractArchive (makedirs fs0 (tempDirOf inp.outDir))
         (tempDirOf inp.outDir) arch⟩ := by
  simp [convert_exe_to_sb3, hcb, hz, hex, hwe, updateProgress_safe hb]

theorem convert_success_shape {cwd : List Char} {inp : ConvIn} {fs0 : FS}
    {b : Nat → CbRes} {arch : Archive} (hcb : inp.cb = some b)
    (hb : ∀ n e, b n ≠ CbRes.raiseOther e) (hz : inp.zipRead = ZipRead.ok arch)
    (hex : fsExists (extractArchive (makedirs fs0 (tempDirOf inp.outDir))
      (tempDirOf inp.outDir) arch) (appDirOf inp.outDir) = true)
    (hwe : inp.writeErr = none) :
    convert_exe_to_sb3 cwd inp fs0 =
      ⟨PyResult.ret true,
       [(10, msgExtract), (50, msgPack), (80, msgClean), (100, msgDone)],
       cleanupFS
         (writeTarget cwd
           (extractArchive (makedirs fs0 (tempDirOf inp.outDir))
             (tempDirOf inp.outDir) arch)
           (targetOf inp.zfn inp.outDir) (appDirOf inp.outDir))
         (mangle (tempDirOf inp.outDir)) inp.cleanupOk⟩ := by
  simp [convert_exe_to_sb3, hcb, hz, hex, hwe, updateProgress_safe hb]

theorem convert_badZip_shape_none {cwd : List Char} {inp : ConvIn} {fs0 : FS}
    (hcb : inp.cb = none) (hz : inp.zipRead = ZipRead.badZip) :
    convert_exe_to_sb3 cwd inp fs0 =
      ⟨PyResult.ret false, [], makedirs fs0 (tempDirOf inp.outDir)⟩ := by
  simp [convert_exe_to_sb3, hcb, hz, updateProgress_none]

theorem convert_ioErr_shape_none {cwd : List Char} {inp : ConvIn} {fs0 : FS}
    {m : List Char} (hcb : inp.cb = none) (hz : inp.zipRead = ZipRead.ioErr m) :
    convert_exe_to_sb3 cwd inp fs0 =
      ⟨PyResult.ret false, [], makedirs fs0 (tempDirOf inp.outDir)⟩ := by
  simp [convert_exe_to_sb3, hcb, hz, updateProgress_none, outerCatch_none,
    ConvOut.withPre]

theorem convert_missing_shape_none {cwd : List Char} {inp : ConvIn} {fs0 : FS}
    {arch : Archive} (hcb : inp.cb = none) (hz : inp.zipRead = ZipRead.ok arch)
    (hex : fsExists (extractArchive (makedirs fs0 (tempDirOf inp.outDir))
      (tempDirOf inp.outDir) arch) (appDirOf inp.outDir) = false) :
    convert_exe_to_sb3 cwd inp fs0 =
      ⟨PyResult.ret false, [],
       extractArchive (makedirs fs0 (tempDirOf inp.outDir))
         (tempDirOf inp.outDir) arch⟩ := by
  simp [convert_exe_to_sb3, hcb, hz, hex, updateProgress_none]

theorem convert_writeErr_shape_none {cwd : List Char} {inp : ConvIn} {fs0 : FS}
    {arch : Archive} {m : List Char} (hcb : inp.cb = none)
    (hz : inp.zipRead = ZipRead.ok arch)
    (hex : fsExists (extractArchive (makedirs fs0 (tempDirOf inp.outDir))
      (tempDirOf inp.outDir) arch) (appDirOf inp.outDir) = true)
    (hwe : inp.writeErr = some m) :
    convert_exe_to_sb3 cwd inp fs0 =
      ⟨PyResult.ret false, [],
       extractArchive (makedirs fs0 (tempDirOf inp.outDir))
         (tempDirOf inp.outDir) arch⟩ := by
  simp [convert_exe_to_sb3, hcb, hz, hex, hwe, updateProgress_none]

theorem convert_success_shape_none {cwd : List Char} {inp : ConvIn} {fs0 : FS}
    {arch : Archive} (hcb : inp.cb = none) (hz : inp.zipRead = ZipRead.ok arch)
    (hex : fsExists (extractArchive (makedirs fs0 (tempDirOf inp.outDir))
      (tempDirOf inp.outDir) arch) (appDirOf inp.outDir) = true)
    (hwe : inp.writeErr = none) :
    convert_exe_to_sb3 cwd inp fs0 =
      ⟨PyResult.ret true, [],
       cleanupFS
         (writeTarget cwd
           (extractArchive (makedirs fs0 (tempDirOf inp.outDir))
             (tempDirOf inp.outDir) arch)
           (targetOf inp.zfn inp.outDir) (appDirOf inp.outDir))
         (mangle (tempDirOf inp.outDir)) inp.cleanupOk⟩ := by
  simp [convert_exe_to_sb3, hcb, hz, hex, hwe, updateProgress_none]

theorem convert_result_eq_resultOf {cwd : List Char} {inp : ConvIn} {fs0 : FS}
    (hsafe : cbSafe inp.cb) :
    (convert_exe_to_sb3 cwd inp fs0).result = resultOf inp fs0 := by
  cases hcb : inp.cb with
  | none =>
    cases hz : inp.zipRead with
    | badZip => rw [convert_badZip_shape_none hcb hz, resultOf, hz]
    | ioErr m => rw [convert_ioErr_shape_none hcb hz, resultOf, hz]
    | ok arch =>
      cases hex : fsExists (extractArchive (makedirs fs0 (tempDirOf inp.outDir))
          (tempDirOf inp.outDir) arch) (appDirOf inp.outDir) with
      | false =>
        rw [convert_missing_shape_none hcb hz hex]
        simp [resultOf, hz, hex]
      | true =>
        cases hwe : inp.writeErr with
        | some m =>
          rw [convert_writeErr_shape_none hcb hz hex hwe]
          simp [resultOf, hz, hex, hwe]
        | none =>
          rw [convert_success_shape_none hcb hz hex hwe]
          simp [resultOf, hz, hex, hwe]
  | some b =>
    have hb : ∀ n e, b n ≠ CbRes.raiseOther e := by
      rw [hcb] at hsafe
      exact hsafe
    cases hz : inp.zipRead with
    | badZip => rw [convert_badZip_shape hcb hb hz, resultOf, hz]
    | ioErr m => rw [convert_ioErr_shape hcb hb hz, resultOf, hz]
    | ok arch =>
      cases hex : fsExists (extractArchive (makedirs fs0 (tempDirOf inp.outDir))
          (tempDirOf inp.outDir) arch) (appDirOf inp.outDir) with
      | false =>
        rw [convert_missing_shape hcb hb hz hex]
        simp [resultOf, hz, hex]
      | true =>
        cases hwe : inp.writeErr with
        | some m =>
          rw [convert_writeErr_shape hcb hb hz hex hwe]
          simp [resultOf, hz, hex, hwe]
        | none =>
          rw [convert_success_shape hcb hb hz hex hwe]
          simp [resultOf, hz, hex, hwe]

/-! ### Existence of the temp workspace on the model filesystem -/

theorem splitSep_snoc_ne {c c' : Char} (hc : c' ≠ c) (y : List Char) :
    ∃ L s, splitSep c (y ++ [c']) = L ++ [s ++ [c']] := by
  induction y with
  | nil => exact ⟨[], [], by simp [splitSep, hc]⟩
  | cons x y' ih =>
    obtain ⟨L, s, hLs⟩ := ih
    by_cases hx : x = c
    · exact ⟨[] :: L, s, by simp [splitSep, hx, hLs]⟩
    · cases L with
      | nil => exact ⟨[], x :: s, by simp [splitSep, hx, hLs]⟩
      | cons h0 L' => exact ⟨(x :: h0) :: L', s, by simp [splitSep, hx, hLs]⟩

theorem winSegs_snoc_ne_nil (y : List Char) {c' : Char}
    (hc : isSepW c' = false) : winSegs (y ++ [c']) ≠ [] := by
  have hcs : c' ≠ '\\' ∧ c' ≠ '/' := by
    constructor <;> intro hh <;> rw [hh] at hc <;> simp [isSepW] at hc
  have hmg : mangle (y ++ [c']) = mangle y ++ [c'] := by
    simp [mangle, hcs.2]
  obtain ⟨L, s, hLs⟩ := splitSep_snoc_ne hcs.1 (mangle y)
  simp only [winSegs, hmg, hLs, List.filter_append]
  intro hcon
  rcases List.append_eq_nil.mp hcon with ⟨_, h2⟩
  simp at h2

theorem tempDirOf_snoc (outDir : List Char) :
    ∃ y, tempDirOf outDir = y ++ chars "temp_extract" := by
  unfold tempDirOf joinWin
  split
  · exact ⟨[], rfl⟩
  · split
    · exact ⟨[], rfl⟩
    · split
      · exact ⟨outDir, rfl⟩
      · exact ⟨outDir ++ ['\\'], by simp⟩

theorem winSegs_tempDir_ne_nil (outDir : List Char) :
    winSegs (tempDirOf outDir) ≠ [] := by
  obtain ⟨y, hy⟩ := tempDirOf_snoc outDir
  rw [hy, show chars "temp_extract" = chars "temp_extrac" ++ ['t'] from rfl,
    ← List.append_assoc]
  exact winSegs_snoc_ne_nil _ (by decide)

theorem self_mem_prefixesNE {l : List Seg} (h : l ≠ []) : l ∈ prefixesNE l := by
  have hpos : 0 < l.length := List.length_pos.mpr h
  simp only [prefixesNE, List.mem_map, List.mem_range]
  exact ⟨l.length - 1, by omega, by rw [Nat.sub_add_cancel hpos, List.take_length]⟩

theorem prefix_of_mem_prefixesNE {l x : List Seg} (h : x ∈ prefixesNE l) :
    x <+: l := by
  simp only [prefixesNE, List.mem_map, List.mem_range] at h
  obtain ⟨i, _, hx⟩ := h
  exact hx ▸ List.take_prefix (i + 1) l

theorem fsExists_makedirs_self (fs : FS) (p : List Char)
    (h : winSegs p ≠ []) : fsExists (makedirs fs p) p = true := by
  simp only [fsExists, makedirs, List.any_append, Bool.or_eq_true,
    List.any_eq_true]
  exact Or.inl (Or.inr ⟨winSegs p, self_mem_prefixesNE h, by simp⟩)

theorem fsExists_extract_mono {fs : FS} (t : List Char) (a : Archive)
    {p : List Char} (h : fsExists fs p = true) :
    fsExists (extractArchive fs t a) p = true := by
  simp only [fsExists, Bool.or_eq_true] at h
  simp only [fsExists, extractArchive, List.any_append, Bool.or_eq_true,
    List.any_map]
  rcases h with h | h
  · exact Or.inl (Or.inl (Or.inl h))
  · exact Or.inr (Or.inl h)

theorem fsExists_cleanup_self (fs : FS) (p : List Char) :
    fsExists (cleanupFS fs (mangle p) true) p = false := by
  simp only [cleanupFS, if_pos rfl, fsExists, winSegs_mangle]
  have hself : (winSegs p).isPrefixOf (winSegs p) = true :=
    List.isPrefixOf_iff_prefix.mpr (List.prefix_refl _)
  apply Bool.or_eq_false_iff.mpr
  constructor
  · apply List.any_eq_false.mpr
    intro d hd
    rcases List.mem_filter.mp hd with ⟨_, hd2⟩
    intro hdeq
    rw [eq_of_beq hdeq] at hd2
    simp [hself] at hd2
  · apply List.any_eq_false.mpr
    intro f hf
    rcases List.mem_filter.mp hf with ⟨_, hf2⟩
    intro hfeq
    rw [eq_of_beq hfeq] at hf2
    simp [hself] at hf2

/-! ### The workspace, app directory and target paths on a well-formed
output directory -/

theorem wfSegs_singleton {s : Seg} (h : wfSeg s) : wfSegs [s] := by
  intro x hx
  rcases List.mem_singleton.mp hx with rfl
  exact h

theorem tempDirOf_mkPath {O : List Seg} (hO : wfSegs O) :
    tempDirOf (mkPath O) = mkPath (O ++ [chars "temp_extract"]) :=
  joinWin_mkPath hO (by decide)

theorem appDirOf_mkPath {O : List Seg} (hO : wfSegs O) :
    appDirOf (mkPath O)
      = mkPath (O ++ [chars "temp_extract", chars "packaged-project",
          chars "resources", chars "app"]) ++ ['\\'] := by
  have w1 : wfSegs (O ++ [chars "temp_extract"]) :=
    wfSegs_append hO (wfSegs_singleton (by decide))
  have w2 : wfSegs ((O ++ [chars "temp_extract"])
      ++ [chars "packaged-project"]) :=
    wfSegs_append w1 (wfSegs_singleton (by decide))
  have w3 : wfSegs (((O ++ [chars "temp_extract"])
      ++ [chars "packaged-project"]) ++ [chars "resources"]) :=
    wfSegs_append w2 (wfSegs_singleton (by decide))
  unfold appDirOf
  rw [tempDirOf_mkPath hO, mangle_mkPath w1, joinWin_mkPath w1 (by decide),
    joinWin_mkPath w2 (by decide), joinWin_mkPath w3 (by decide)]
  simp

theorem basenameWin_no_sep (p : List Char) :
    ∀ c ∈ basenameWin p, isSepW c = false := by
  unfold basenameWin
  suffices hgen : ∀ acc : List Char, (∀ c ∈ acc, isSepW c = false) →
      ∀ c ∈ p.foldl (fun acc c => if isSepW c then [] else acc ++ [c]) acc,
        isSepW c = false by
    exact hgen [] (by simp)
  induction p with
  | nil => intro acc hacc; simpa using hacc
  | cons x p' ih =>
    intro acc hacc
    simp only [List.foldl_cons]
    by_cases hx : isSepW x = true
    · rw [if_pos hx]
      exact ih [] (by simp)
    · rw [if_neg hx]
      apply ih
      intro c hc
      rcases List.mem_append.mp hc with h1 | h2
      · exact hacc c h1
      · rcases List.mem_singleton.mp h2 with rfl
        simpa using hx

theorem splitextStem_subset (q : List Char) : ∀ c ∈ splitextStem q, c ∈ q := by
  unfold splitextStem
  split
  · exact fun c hc => hc
  · dsimp only
    split
    · exact fun c hc => hc
    · exact fun c hc => List.take_subset _ q hc

theorem sb3Name_no_sep (zfn : List Char) :
    ∀ c ∈ sb3Name zfn, isSepW c = false := by
  intro c hc
  rcases List.mem_append.mp hc with h1 | h2
  · exact basenameWin_no_sep zfn c (splitextStem_subset _ c h1)
  · revert h2
    have : ∀ c ∈ chars ".sb3", isSepW c = false := by decide
    exact this c

theorem sb3Name_ne_nil (zfn : List Char) : sb3Name zfn ≠ [] := by
  simp [sb3Name, chars]

theorem winSegs_root_single {s : List Char} (hs : s ≠ [])
    (hsep : ∀ c ∈ s, isSepW c = false) : winSegs ('\\' :: s) = [s] := by
  have hns : '/' ∉ s := by
    intro hc
    have := hsep '/' hc
    simp [isSepW] at this
  have hnb : '\\' ∉ s := by
    intro hc
    have := hsep '\\' hc
    simp [isSepW] at this
  have hmg : mangle ('\\' :: s) = '\\' :: s := by
    apply mangle_eq_self
    intro hc
    rcases List.mem_cons.mp hc with h1 | h2
    · exact absurd h1 (by decide)
    · exact hns h2
  simp only [winSegs, hmg]
  rw [show splitSep '\\' ('\\' :: s) = [] :: splitSep '\\' s from by
      simp [splitSep],
    splitSep_single hnb]
  simp [List.filter_cons, hs]

theorem targetOf_mkPath {O : List Seg} (hO : wfSegs O) (zfn : List Char) :
    winSegs (targetOf zfn (mkPath O)) = O ++ [sb3Name zfn] := by
  have hname := sb3Name_no_sep zfn
  have hnn := sb3Name_ne_nil zfn
  obtain ⟨c₀, n', hn⟩ : ∃ c₀ n', sb3Name zfn = c₀ :: n' := by
    cases hq : sb3Name zfn with
    | nil => exact absurd hq hnn
    | cons a b => exact ⟨a, b, rfl⟩
  have hc₀ : isSepW c₀ = false := hname c₀ (hn ▸ List.mem_cons_self c₀ n')
  unfold targetOf
  cases hO' : O with
  | nil =>
    rw [joinWin, if_neg (by simp [hn, hc₀]), if_neg (by simp [mkPath]),
      if_pos (by simp [mkPath, joinSep, isSepW])]
    rw [show mkPath [] ++ sb3Name zfn = '\\' :: sb3Name zfn from by
      simp [mkPath, joinSep]]
    rw [winSegs_root_single hnn hname]
    simp
  | cons o O' =>
    have hOne : O ≠ [] := by simp [hO']
    obtain ⟨a, ha, ha1, ha2⟩ := mkPath_getLast hO (hO' ▸ hOne)
    rw [joinWin, if_neg (by simp [hn, hc₀]), if_neg (by simp [mkPath]),
      if_neg (by
        rw [← hO', ha]
        simp [ha1, ha2])]
    exact hO' ▸ winSegs_mkPath_snoc hO hnn hname

theorem winSegs_mkPath {X : List Seg} (h : wfSegs X) : winSegs (mkPath X) = X := by
  have h1 := winSegs_mkPath_gen h (Or.inl rfl)
  rwa [List.append_nil] at h1

theorem wfSegs_work {O : List Seg} (hO : wfSegs O) :
    wfSegs (O ++ [chars "temp_extract", chars "packaged-project",
      chars "resources", chars "app"]) := by
  apply wfSegs_append hO
  intro s hs
  fin_cases hs <;> decide

theorem winSegs_tempDirOf_mkPath {O : List Seg} (hO : wfSegs O) :
    winSegs (tempDirOf (mkPath O)) = O ++ [chars "temp_extract"] := by
  rw [tempDirOf_mkPath hO]
  exact winSegs_mkPath (wfSegs_append hO (wfSegs_singleton (by decide)))

theorem winSegs_appDirOf_mkPath {O : List Seg} (hO : wfSegs O) :
    winSegs (appDirOf (mkPath O)) = (O ++ [chars "temp_extract"]) ++ pppSegs := by
  rw [appDirOf_mkPath hO, winSegs_mkPath_gen (wfSegs_work hO) (Or.inr rfl)]
  simp [pppSegs]

theorem fsExists_app_layout {O : List Seg} (hO : wfSegs O) (fs0 : FS)
    {arch : Archive} (happ : pppSegs ∈ arch.adirs) :
    fsExists (extractArchive (makedirs fs0 (tempDirOf (mkPath O)))
      (tempDirOf (mkPath O)) arch) (appDirOf (mkPath O)) = true := by
  simp only [fsExists, winSegs_appDirOf_mkPath hO, extractArchive, makedirs,
    winSegs_tempDirOf_mkPath hO, List.any_append, Bool.or_eq_true,
    List.any_eq_true]
  refine Or.inl (Or.inl (Or.inr ?_))
  refine ⟨(O ++ [chars "temp_extract"]) ++ pppSegs, ?_, by simp⟩
  apply List.mem_flatMap.mpr
  exact ⟨pppSegs, happ, self_mem_prefixesNE (by simp [pppSegs])⟩

theorem fsExists_app_missing {O : List Seg} (hO : wfSegs O) {fs0 : FS}
    {arch : Archive}
    (hd : ∀ d ∈ arch.adirs, ¬ pppSegs <+: d)
    (hf : ∀ f ∈ arch.afiles, ¬ pppSegs <+: f.1)
    (hfsd : ∀ d ∈ fs0.dirs, ¬ (O ++ [chars "temp_extract"]) <+: d)
    (hfsf : ∀ f ∈ fs0.files, ¬ (O ++ [chars "temp_extract"]) <+: f.1) :
    fsExists (extractArchive (makedirs fs0 (tempDirOf (mkPath O)))
      (tempDirOf (mkPath O)) arch) (appDirOf (mkPath O)) = false := by
  have hTA : (O ++ [chars "temp_extract"])
      <+: (O ++ [chars "temp_extract"]) ++ pppSegs := List.prefix_append _ _
  simp only [fsExists, winSegs_appDirOf_mkPath hO, extractArchive, makedirs,
    winSegs_tempDirOf_mkPath hO]
  apply Bool.or_eq_false_iff.mpr
  constructor
  · apply List.any_eq_false.mpr
    intro d hdm
    intro hdeq
    have hdA := eq_of_beq hdeq
    subst hdA
    rcases List.mem_append.mp hdm with hdm1 | hdm2
    · rcases List.mem_append.mp hdm1 with hdm3 | hdm4
      · rcases List.mem_append.mp hdm3 with hdm5 | hdm6
        · exact hfsd _ hdm5 hTA
        · have hpre := prefix_of_mem_prefixesNE hdm6
          have hlen := hpre.length_le
          simp [pppSegs] at hlen
      · obtain ⟨d0, hd0, hdm7⟩ := List.mem_flatMap.mp hdm4
        have hpre := prefix_of_mem_prefixesNE hdm7
        rw [List.prefix_append_right_inj] at hpre
        exact hd d0 hd0 hpre
    · obtain ⟨f0, hf0, hdm8⟩ := List.mem_flatMap.mp hdm2
      have hpre := prefix_of_mem_prefixesNE hdm8
      rw [List.prefix_append_right_inj] at hpre
      exact hf f0 hf0 (hpre.trans (List.dropLast_prefix f0.1))
  · apply List.any_eq_false.mpr
    intro f hfm
    intro hfeq
    have hfA := eq_of_beq hfeq
    rcases List.mem_append.mp hfm with hfm1 | hfm2
    · refine hfsf f hfm1 ?_
      rw [hfA]
      exact hTA
    · obtain ⟨f0, hf0, hfm3⟩ := List.mem_map.mp hfm2
      rw [← hfm3] at hfA
      simp only at hfA
      have hfp : f0.1 = pppSegs := List.append_cancel_left hfA
      exact hf f0 hf0 (hfp ▸ List.prefix_refl _)

/-! ### The repacked archive -/

theorem joinWin_joinSep {B : List Seg} {nm : Seg} (hB : wfSegs B)
    (hnm : wfSeg nm) : joinWin (joinSep '\\' B) nm = joinSep '\\' (B ++ [nm]) := by
  obtain ⟨c₀, n', rfl⟩ : ∃ c₀ n', nm = c₀ :: n' := by
    cases nm with
    | nil => exact absurd rfl hnm.1
    | cons a b => exact ⟨a, b, rfl⟩
  have hc := hnm.2.2.2 c₀ (List.mem_cons_self c₀ n')
  by_cases hBe : B = []
  · subst hBe
    simp [joinWin, joinSep, hc.1]
  · obtain ⟨cj, rj, hjs, _, _⟩ := joinSep_head hB hBe
    obtain ⟨a, ha, ha1, ha2⟩ := joinSep_getLast hB hBe
    rw [joinWin, if_neg (by simp [hc.1]), if_neg (by simp [hjs]),
      if_neg (by rw [ha]; simp [ha1, ha2]), joinSep_append '\\' hBe (by simp)]
    simp [joinSep]

theorem arc_eval (cwd : List Char) {O : List Seg} (hO : wfSegs O) {B : List Seg}
    {nm : Seg} (hB : wfSegs B) (hnm : wfSeg nm) :
    joinWin (custom_relpath (winPlat cwd)
        (rootStrOf (appDirOf (mkPath O)) B) (appDirOf (mkPath O))) nm
      = joinSep '\\' (B ++ [nm]) := by
  rw [appDirOf_mkPath hO,
    custom_relpath_win_app cwd (wfSegs_work hO) (by simp) hB]
  exact joinWin_joinSep hB hnm

theorem repackEntries_spec (cwd : List Char) {O : List Seg} {fs0 : FS}
    {arch : Archive} (hO : wfSegs O)
    (harch : ∀ f ∈ arch.afiles, ∀ s ∈ f.1, wfSeg s)
    (hcleanf : ∀ f ∈ fs0.files, ¬ (O ++ [chars "temp_extract"]) <+: f.1) :
    ∀ arc data,
      (arc, data) ∈ repackEntries cwd
          (extractArchive (makedirs fs0 (tempDirOf (mkPath O)))
            (tempDirOf (mkPath O)) arch) (appDirOf (mkPath O)) ↔
        ∃ B nm, (pppSegs ++ (B ++ [nm]), data) ∈ arch.afiles ∧
          arc = joinSep '\\' (B ++ [nm]) := by
  intro arc data
  have hTppp : winSegs (appDirOf (mkPath O))
      = (O ++ [chars "temp_extract"]) ++ pppSegs := winSegs_appDirOf_mkPath hO
  constructor
  · intro hmem
    simp only [repackEntries, List.mem_map, List.mem_filter] at hmem
    obtain ⟨f, ⟨hfm, hpred⟩, hgf⟩ := hmem
    rw [Bool.and_eq_true] at hpred
    have hApre : winSegs (appDirOf (mkPath O)) <+: f.1 :=
      List.isPrefixOf_iff_prefix.mp hpred.1
    simp only [extractArchive, makedirs] at hfm
    rcases List.mem_append.mp hfm with hfm1 | hfm2
    · exfalso
      apply hcleanf f hfm1
      rw [hTppp] at hApre
      exact (List.prefix_append _ pppSegs).trans hApre
    · obtain ⟨f0, hf0, hfeq⟩ := List.mem_map.mp hfm2
      rw [winSegs_tempDirOf_mkPath hO] at hfeq
      have hkey : f.1 = (O ++ [chars "temp_extract"]) ++ f0.1 := by
        rw [← hfeq]
      have hdata : f.2 = FContent.raw f0.2 := by
        rw [← hfeq]
      rw [hkey, hTppp, List.prefix_append_right_inj] at hApre
      obtain ⟨rest, hrest⟩ := hApre
      have hlen := hpred.2
      rw [decide_eq_true_eq, hTppp, hkey, ← hrest] at hlen
      simp only [List.length_append, pppSegs] at hlen
      have hrne : rest ≠ [] := by
        intro hcon
        rw [hcon] at hlen
        simp at hlen
      obtain ⟨B, nm, hBnm⟩ : ∃ B nm, rest = B ++ [nm] :=
        ⟨rest.dropLast, rest.getLast hrne,
          (List.dropLast_append_getLast hrne).symm⟩
      refine ⟨B, nm, ?_, ?_⟩
      · rw [← hBnm, hrest]
        have hdata2 : data = f0.2 := by
          have h2 := congrArg Prod.snd hgf
          rw [hdata] at h2
          simpa [rawOf] using h2.symm
        rw [show (f0.1, data) = f0 from by
          rw [Prod.ext_iff]
          exact ⟨rfl, hdata2⟩]
        exact hf0
      · have hwf : ∀ s ∈ f0.1, wfSeg s := harch f0 hf0
        have hwfB : wfSegs B := by
          intro s hs
          apply hwf
          rw [← hrest, hBnm]
          exact List.mem_append.mpr (Or.inr (List.mem_append.mpr (Or.inl hs)))
        have hwfnm : wfSeg nm := by
          apply hwf
          rw [← hrest, hBnm]
          exact List.mem_append.mpr (Or.inr (List.mem_append.mpr (Or.inr (by simp))))
        rw [Prod.mk.injEq] at hgf
        have hsub : f.1.drop (winSegs (appDirOf (mkPath O))).length = B ++ [nm] := by
          rw [hkey, hTppp, ← hrest, hBnm]
          rw [show (O ++ [chars "temp_extract"]) ++ (pppSegs ++ (B ++ [nm]))
              = ((O ++ [chars "temp_extract"]) ++ pppSegs) ++ (B ++ [nm]) from by
            simp]
          exact List.drop_left _ _
        rw [← hgf.1, hsub, List.dropLast_concat, List.getLast?_concat]
        simp only [Option.getD_some]
        exact arc_eval cwd hO hwfB hwfnm
  · rintro ⟨B, nm, hmem, harc⟩
    have hwf : ∀ s ∈ (pppSegs ++ (B ++ [nm])), wfSeg s := harch _ hmem
    have hwfB : wfSegs B := fun s hs =>
      hwf s (List.mem_append.mpr (Or.inr (List.mem_append.mpr (Or.inl hs))))
    have hwfnm : wfSeg nm :=
      hwf nm (List.mem_append.mpr (Or.inr (List.mem_append.mpr (Or.inr (by simp)))))
    simp only [repackEntries, List.mem_map, List.mem_filter]
    refine ⟨((O ++ [chars "temp_extract"]) ++ (pppSegs ++ (B ++ [nm])),
      FContent.raw data), ⟨?_, ?_⟩, ?_⟩
    · simp only [extractArchive, makedirs]
      apply List.mem_append.mpr
      right
      apply List.mem_map.mpr
      exact ⟨(pppSegs ++ (B ++ [nm]), data), hmem, by
        rw [winSegs_tempDirOf_mkPath hO]⟩
    · rw [Bool.and_eq_true]
      constructor
      · apply List.isPrefixOf_iff_prefix.mpr
        rw [hTppp, show (O ++ [chars "temp_extract"]) ++ (pppSegs ++ (B ++ [nm]))
            = ((O ++ [chars "temp_extract"]) ++ pppSegs) ++ (B ++ [nm]) from by
          simp]
        exact List.prefix_append _ _
      · rw [decide_eq_true_eq, hTppp]
        simp [pppSegs]
    · have hsub : ((O ++ [chars "temp_extract"]) ++ (pppSegs ++ (B ++ [nm]))).drop
          (winSegs (appDirOf (mkPath O))).length = B ++ [nm] := by
        rw [hTppp, show (O ++ [chars "temp_extract"]) ++ (pppSegs ++ (B ++ [nm]))
            = ((O ++ [chars "temp_extract"]) ++ pppSegs) ++ (B ++ [nm]) from by
          simp]
        exact List.drop_left _ _
      simp only [hsub, List.dropLast_concat, List.getLast?_concat,
        Option.getD_some, rawOf]
      rw [arc_eval cwd hO hwfB hwfnm, harc]

theorem te_ne_sb3Name (zfn : List Char) : chars "temp_extract" ≠ sb3Name zfn := by
  intro h
  have h3 : (sb3Name zfn).getLast? = some '3' := by
    unfold sb3Name
    rw [List.getLast?_append,
      show (chars ".sb3").getLast? = some '3' from rfl]
    rfl
  rw [← h] at h3
  exact absurd h3 (by decide)

theorem find?_keys_ne {l : List (List Seg × FContent)} {k : List Seg}
    (h : ∀ f ∈ l, f.1 ≠ k) : l.find? (fun f => f.1 == k) = none := by
  apply List.find?_eq_none.mpr
  intro f hf
  simp [h f hf]

theorem fileAt_write_cleanup (cwd : List Char) {O : List Seg} (hO : wfSegs O)
    (zfn : List Char) (fs2 : FS) (cok : Bool) :
    fileAt (cleanupFS (writeTarget cwd fs2 (targetOf zfn (mkPath O))
        (appDirOf (mkPath O))) (mangle (tempDirOf (mkPath O))) cok)
      (O ++ [sb3Name zfn])
      = some (FContent.zipped (repackEntries cwd fs2 (appDirOf (mkPath O)))) := by
  have htgt : winSegs (targetOf zfn (mkPath O)) = O ++ [sb3Name zfn] :=
    targetOf_mkPath hO zfn
  have hne : ∀ f ∈ fs2.files.filter
      (fun f => !(f.1 == O ++ [sb3Name zfn])),
      f.1 ≠ O ++ [sb3Name zfn] := by
    intro f hf
    rcases List.mem_filter.mp hf with ⟨_, hf2⟩
    intro hcon
    rw [hcon] at hf2
    simp at hf2
  cases cok with
  | false =>
    simp only [cleanupFS, Bool.false_eq_true, if_false, fileAt, writeTarget,
      htgt]
    rw [List.find?_append, find?_keys_ne hne]
    simp [List.find?]
  | true =>
    have hnT : ((winSegs (mangle (tempDirOf (mkPath O)))).isPrefixOf
        (O ++ [sb3Name zfn])) = false := by
      rw [winSegs_mangle, winSegs_tempDirOf_mkPath hO]
      apply Bool.eq_false_iff.mpr
      intro hcon
      have hpre := List.isPrefixOf_iff_prefix.mp hcon
      rw [List.prefix_append_right_inj] at hpre
      exact te_ne_sb3Name zfn (List.cons_prefix_cons.mp hpre).1
    simp only [cleanupFS, if_pos rfl, if_true, fileAt, writeTarget, htgt,
      List.filter_append]
    rw [List.find?_append, find?_keys_ne (fun f hf => by
      rcases List.mem_filter.mp hf with ⟨hf1, _⟩
      exact hne f hf1)]
    simp [List.find?, List.filter_cons, hnT]

/-! ### No dot components survive `custom_relpath` (POSIX flavour) -/

theorem relCollapse_inv (R : Seg → Prop) (L : List Seg)
    (hL : ∀ p ∈ L, p ≠ ['.'] → p ≠ ['.', '.'] → R p) :
    ∀ acc, (∀ x ∈ acc, R x) →
      ∀ s ∈ L.foldl (fun acc part =>
          if part = ['.', '.'] then acc.dropLast
          else if part = ['.'] then acc
          else acc ++ [part]) acc, R s := by
  induction L with
  | nil => intro acc hacc s hs; exact hacc s hs
  | cons p L' ih =>
    intro acc hacc s hs
    simp only [List.foldl_cons] at hs
    refine ih (fun x hx h1 h2 => hL x (List.mem_cons_of_mem p hx) h1 h2) _
      ?_ s hs
    intro x hx
    by_cases h1 : p = ['.', '.']
    · rw [if_pos h1] at hx
      exact hacc x ((List.dropLast_prefix acc).subset hx)
    · rw [if_neg h1] at hx
      by_cases h2 : p = ['.']
      · rw [if_pos h2] at hx
        exact hacc x hx
      · rw [if_neg h2] at hx
        rcases List.mem_append.mp hx with h3 | h4
        · exact hacc x h3
        · rcases List.mem_singleton.mp h4 with rfl
          exact hL x (List.mem_cons_self x L') h2 h1

theorem relCollapse_mem {L : List Seg} {s : Seg} (hs : s ∈ relCollapse L) :
    s ∈ L ∧ s ≠ ['.'] ∧ s ≠ ['.', '.'] :=
  relCollapse_inv (fun x => x ∈ L ∧ x ≠ ['.'] ∧ x ≠ ['.', '.']) L
    (fun p hp h1 h2 => ⟨hp, h1, h2⟩) [] (by simp) s hs

theorem collapseP_inv {n : Nat} (hn : n ≠ 0) (R : Seg → Prop)
    (hR : ∀ x, R x → x ≠ ['.', '.']) (L : List Seg)
    (hL : ∀ p ∈ L, p ≠ [] → p ≠ ['.'] → p ≠ ['.', '.'] → R p) :
    ∀ acc, (∀ x ∈ acc, R x) →
      ∀ s ∈ L.foldl (fun acc comp =>
          if comp = [] ∨ comp = ['.'] then acc
          else if comp ≠ ['.', '.'] ∨ (n = 0 ∧ acc = [])
              ∨ acc.getLast? = some ['.', '.'] then acc ++ [comp]
          else acc.dropLast) acc, R s := by
  induction L with
  | nil => intro acc hacc s hs; exact hacc s hs
  | cons p L' ih =>
    intro acc hacc s hs
    simp only [List.foldl_cons] at hs
    refine ih (fun x hx h1 h2 h3 => hL x (List.mem_cons_of_mem p hx) h1 h2 h3)
      _ ?_ s hs
    intro x hx
    by_cases h1 : p = [] ∨ p = ['.']
    · rw [if_pos h1] at hx
      exact hacc x hx
    · rw [if_neg h1] at hx
      push_neg at h1
      by_cases h2 : p ≠ ['.', '.'] ∨ (n = 0 ∧ acc = [])
          ∨ acc.getLast? = some ['.', '.']
      · rw [if_pos h2] at hx
        rcases List.mem_append.mp hx with h3 | h4
        · exact hacc x h3
        · rcases List.mem_singleton.mp h4 with rfl
          rcases h2 with h5 | h6 | h7
          · exact hL x (List.mem_cons_self x L') h1.1 h1.2 h5
          · exact absurd h6.1 hn
          · have hmem : (['.', '.'] : Seg) ∈ acc :=
              List.mem_of_mem_getLast? (by simp [h7])
            exact absurd rfl (hR _ (hacc _ hmem))
      · rw [if_neg h2] at hx
        exact hacc x ((List.dropLast_prefix acc).subset hx)

theorem collapseP_mem {n : Nat} (hn : n ≠ 0) {L : List Seg} {s : Seg}
    (hs : s ∈ collapseP n L) :
    s ∈ L ∧ s ≠ [] ∧ s ≠ ['.'] ∧ s ≠ ['.', '.'] :=
  collapseP_inv hn (fun x => x ∈ L ∧ x ≠ [] ∧ x ≠ ['.'] ∧ x ≠ ['.', '.'])
    (fun x hx => hx.2.2.2) L (fun p hp h1 h2 h3 => ⟨hp, h1, h2, h3⟩) []
    (by simp) s hs

theorem normpathPosix_abs_shape {q : List Char} (hq : isAbsP q = true) :
    ∃ n, (n = 1 ∨ n = 2) ∧
      normpathPosix q = List.replicate n '/' ++
        joinSep '/' (collapseP n (splitSep '/' q)) := by
  have hqne : q ≠ [] := by
    intro h
    rw [h] at hq
    simp [isAbsP] at hq
  have hhead : q.head? = some '/' := by simpa [isAbsP] using hq
  unfold normpathPosix
  rw [if_neg hqne]
  dsimp only
  rw [if_pos hhead]
  by_cases h2 : q.take 2 = ['/', '/'] ∧ q.take 3 ≠ ['/', '/', '/']
  · refine ⟨2, Or.inr rfl, ?_⟩
    rw [if_pos h2, if_neg (by simp)]
  · refine ⟨1, Or.inl rfl, ?_⟩
    rw [if_neg h2, if_neg (by simp)]

theorem splitSep_replicate_join {n : Nat} (hn : n = 1 ∨ n = 2) {C : List Seg}
    (hC : ∀ x ∈ C, '/' ∉ x) :
    ∀ s ∈ splitSep '/' (List.replicate n '/' ++ joinSep '/' C),
      s = [] ∨ s ∈ C := by
  have hbase : ∀ s ∈ splitSep '/' (joinSep '/' C), s = [] ∨ s ∈ C := by
    by_cases hCe : C = []
    · subst hCe
      intro s hs
      simp only [joinSep, splitSep, List.mem_singleton] at hs
      exact Or.inl hs
    · rw [splitSep_joinSep hC hCe]
      exact fun s hs => Or.inr hs
  rcases hn with rfl | rfl
  · intro s hs
    rw [show List.replicate 1 '/' ++ joinSep '/' C = '/' :: joinSep '/' C
        from rfl,
      show splitSep '/' ('/' :: joinSep '/' C)
        = [] :: splitSep '/' (joinSep '/' C) from by simp [splitSep]] at hs
    rcases List.mem_cons.mp hs with rfl | h2
    · exact Or.inl rfl
    · exact hbase s h2
  · intro s hs
    rw [show List.replicate 2 '/' ++ joinSep '/' C
        = '/' :: '/' :: joinSep '/' C from rfl,
      show splitSep '/' ('/' :: '/' :: joinSep '/' C)
        = [] :: [] :: splitSep '/' (joinSep '/' C) from by simp [splitSep]] at hs
    rcases List.mem_cons.mp hs with rfl | h2
    · exact Or.inl rfl
    rcases List.mem_cons.mp h2 with rfl | h3
    · exact Or.inl rfl
    · exact hbase s h3

theorem normpathPosix_no_dots {q : List Char} (hq : isAbsP q = true) :
    ∀ s ∈ splitSep '/' (normpathPosix q), s ≠ ['.'] ∧ s ≠ ['.', '.'] := by
  obtain ⟨n, hn, hshape⟩ := normpathPosix_abs_shape hq
  have hn0 : n ≠ 0 := by rcases hn with rfl | rfl <;> simp
  rw [hshape]
  intro s hs
  have hC : ∀ x ∈ collapseP n (splitSep '/' q), '/' ∉ x := fun x hx =>
    not_mem_splitSep (collapseP_mem hn0 hx).1
  rcases splitSep_replicate_join hn hC s hs with rfl | hsC
  · exact ⟨by simp, by simp⟩
  · have h := collapseP_mem hn0 hsC
    exact ⟨h.2.2.1, h.2.2.2⟩

theorem isAbsP_joinPosix (b : List Char) {a : List Char}
    (ha : isAbsP a = true) : isAbsP (joinPosix a b) = true := by
  obtain ⟨a', rfl⟩ : ∃ a', a = '/' :: a' := by
    cases a with
    | nil => simp [isAbsP] at ha
    | cons x a' =>
      simp only [isAbsP, List.head?_cons, Option.some.injEq, decide_eq_true_eq]
        at ha
      exact ⟨a', by rw [ha]⟩
  unfold joinPosix
  by_cases hb : isAbsP b = true
  · rw [if_pos hb]
    exact hb
  · rw [if_neg hb, if_neg (by simp)]
    by_cases hl : ('/' :: a').getLast? = some '/'
    · rw [if_pos hl]
      simp [isAbsP]
    · rw [if_neg hl]
      simp [isAbsP]

theorem abspathPosix_no_dots {cwd : List Char} (p : List Char)
    (hcwd : isAbsP cwd = true) :
    ∀ s ∈ splitSep '/' (abspathPosix cwd p), s ≠ ['.'] ∧ s ≠ ['.', '.'] := by
  unfold abspathPosix
  by_cases hp : isAbsP p = true
  · rw [if_pos hp]
    exact normpathPosix_no_dots hp
  · rw [if_neg hp]
    exact normpathPosix_no_dots (isAbsP_joinPosix p hcwd)

theorem joinSep_relCollapse_no_dots {parts : List Seg}
    (hp : ∀ x ∈ parts, '/' ∉ x) :
    ∀ s ∈ splitSep '/' (joinSep '/' (relCollapse parts)),
      s ≠ ['.'] ∧ s ≠ ['.', '.'] := by
  intro s hs
  have hsubs : ∀ x ∈ relCollapse parts, '/' ∉ x := fun x hx =>
    hp x (relCollapse_mem hx).1
  by_cases hre : relCollapse parts = []
  · rw [hre] at hs
    simp only [joinSep, splitSep, List.mem_singleton] at hs
    subst hs
    exact ⟨by simp, by simp⟩
  · rw [splitSep_joinSep hsubs hre] at hs
    have h := relCollapse_mem hs
    exact ⟨h.2.1, h.2.2⟩

theorem resultOf_ret (inp : ConvIn) (fs0 : FS) :
    ∃ bv, resultOf inp fs0 = PyResult.ret bv := by
  unfold resultOf
  cases hz : inp.zipRead with
  | badZip => exact ⟨false, rfl⟩
  | ioErr m => exact ⟨false, rfl⟩
  | ok arch =>
    dsimp only
    cases hex : fsExists (extractArchive (makedirs fs0 (tempDirOf inp.outDir))
        (tempDirOf inp.outDir) arch) (appDirOf inp.outDir) with
    | false =>
      rw [if_neg (by simp [hex])]
      exact ⟨false, rfl⟩
    | true =>
      rw [if_pos rfl]
      cases hwe : inp.writeErr with
      | some m => exact ⟨false, rfl⟩
      | none => exact ⟨true, rfl⟩

/-! ### The claims -/

/-- C4: for every input path that is not a well-formed zip archive
(`ZipFile` raises `BadZipFile`), `convert_exe_to_sb3` returns `False`,
the progress callback receives the 10% extraction event followed by a 0%
event carrying the invalid-archive message, and no file is created (the
filesystem's files are unchanged; only the temp directory was made). -/
theorem c4_invalid_archive (cwd : List Char) (inp : ConvIn) (fs0 : FS)
    (b : Nat → CbRes) (hcb : inp.cb = some b)
    (hb : ∀ n e, b n ≠ CbRes.raiseOther e)
    (hz : inp.zipRead = ZipRead.badZip) :
    (convert_exe_to_sb3 cwd inp fs0).result = PyResult.ret false ∧
    (convert_exe_to_sb3 cwd inp fs0).events
      = [(10, msgExtract), (0, msgBadZip)] ∧
    (convert_exe_to_sb3 cwd inp fs0).fs.files = fs0.files := by
  rw [convert_badZip_shape hcb hb hz]
  exact ⟨rfl, rfl, rfl⟩

/-- Witness: C4 instantiated on a concrete bad-zip run with an always-ok
callback. -/
theorem c4_invalid_archive_witness :
    (sampleIn (some (fun _ => CbRes.ok)) ZipRead.badZip).cb
        = some (fun _ => CbRes.ok) ∧
    (∀ n e, (fun _ : Nat => CbRes.ok) n ≠ CbRes.raiseOther e) ∧
    (sampleIn (some (fun _ => CbRes.ok)) ZipRead.badZip).zipRead
        = ZipRead.badZip ∧
    ((convert_exe_to_sb3 sampleCwd
        (sampleIn (some (fun _ => CbRes.ok)) ZipRead.badZip) sampleFS).result
        = PyResult.ret false ∧
      (convert_exe_to_sb3 sampleCwd
        (sampleIn (some (fun _ => CbRes.ok)) ZipRead.badZip) sampleFS).events
        = [(10, msgExtract), (0, msgBadZip)] ∧
      (convert_exe_to_sb3 sampleCwd
        (sampleIn (some (fun _ => CbRes.ok)) ZipRead.badZip) sampleFS).fs.files
        = sampleFS.files) :=
  ⟨rfl, ⟨(fun _ _ h => nomatch h), ⟨rfl,
    c4_invalid_archive sampleCwd
      (sampleIn (some (fun _ => CbRes.ok)) ZipRead.badZip) sampleFS
      (fun _ => CbRes.ok) rfl (fun _ _ h => nomatch h) rfl⟩⟩⟩

/-- C7: the character-by-character separator normalization of the
validate-layout stage (lines 80-91) is idempotent, and on the Windows
host, where both `\` and `/` separate path segments, the normalized path
denotes the same filesystem location as the original. -/
theorem c7_normalization (p : List Char) :
    mangle (mangle p) = mangle p ∧ winSegs (mangle p) = winSegs p :=
  ⟨mangle_mangle p, winSegs_mangle p⟩

/-- C8: `/app/resources` is not a segment-wise ancestor of
`/app/resources-backup/f` but does occur in it as a raw substring, and
`custom_relpath` silently returns the wrong relative path `-backup/f`
(joining it back onto `start` does not reproduce `path`) instead of
failing. -/
theorem c8_substring_pathology :
    custom_relpath (posixPlat (chars "/cwd")) (chars "/app/resources-backup/f")
        (chars "/app/resources") = chars "-backup/f" ∧
    isSubstr (chars "/app/resources") (chars "/app/resources-backup/f")
        = true ∧
    (splitSep '/' (chars "/app/resources")).isPrefixOf
        (splitSep '/' (chars "/app/resources-backup/f")) = false ∧
    joinPosix (chars "/app/resources")
        (custom_relpath (posixPlat (chars "/cwd"))
          (chars "/app/resources-backup/f") (chars "/app/resources"))
      ≠ chars "/app/resources-backup/f" := by
  decide

/-- C1 is false as stated: a failing conversion (here: invalid zip) leaves
the temporary workspace `<outputDirectory>/temp_extract` on the
filesystem when the call returns — `_cleanup_temp_dir` is only invoked on
the success path (stage 4, line 115). -/
theorem c1_counterexample :
    (convert_exe_to_sb3 sampleCwd (sampleIn none ZipRead.badZip)
        sampleFS).result = PyResult.ret false ∧
    fsExists (convert_exe_to_sb3 sampleCwd (sampleIn none ZipRead.badZip)
        sampleFS).fs (tempDirOf (chars "\\out")) = true := by
  decide

/-- C1 (amended): for callbacks that raise nothing but `RuntimeError` and
when cleanup I/O succeeds, the temporary workspace directory no longer
exists on the filesystem when the call returns if and only if the call
returned success; after every failed call it still exists. -/
theorem c1_amended (cwd : List Char) (inp : ConvIn) (fs0 : FS)
    (hsafe : cbSafe inp.cb) (hcl : inp.cleanupOk = true) :
    (fsExists (convert_exe_to_sb3 cwd inp fs0).fs (tempDirOf inp.outDir)
        = false) ↔
      (convert_exe_to_sb3 cwd inp fs0).result = PyResult.ret true := by
  have hTne := winSegs_tempDir_ne_nil inp.outDir
  have hmk := fsExists_makedirs_self fs0 (tempDirOf inp.outDir) hTne
  cases hcb : inp.cb with
  | none =>
    cases hz : inp.zipRead with
    | badZip =>
      rw [convert_badZip_shape_none hcb hz]
      simp [hmk]
    | ioErr m =>
      rw [convert_ioErr_shape_none hcb hz]
      simp [hmk]
    | ok arch =>
      cases hex : fsExists (extractArchive (makedirs fs0 (tempDirOf inp.outDir))
          (tempDirOf inp.outDir) arch) (appDirOf inp.outDir) with
      | false =>
        rw [convert_missing_shape_none hcb hz hex]
        simp [fsExists_extract_mono _ arch hmk]
      | true =>
        cases hwe : inp.writeErr with
        | some m =>
          rw [convert_writeErr_shape_none hcb hz hex hwe]
          simp [fsExists_extract_mono _ arch hmk]
        | none =>
          rw [convert_success_shape_none hcb hz hex hwe, hcl]
          simp [fsExists_cleanup_self]
  | some b =>
    have hb : ∀ n e, b n ≠ CbRes.raiseOther e := by
      rw [hcb] at hsafe
      exact hsafe
    cases hz : inp.zipRead with
    | badZip =>
      rw [convert_badZip_shape hcb hb hz]
      simp [hmk]
    | ioErr m =>
      rw [convert_ioErr_shape hcb hb hz]
      simp [hmk]
    | ok arch =>
      cases hex : fsExists (extractArchive (makedirs fs0 (tempDirOf inp.outDir))
          (tempDirOf inp.outDir) arch) (appDirOf inp.outDir) with
      | false =>
        rw [convert_missing_shape hcb hb hz hex]
        simp [fsExists_extract_mono _ arch hmk]
      | true =>
        cases hwe : inp.writeErr with
        | some m =>
          rw [convert_writeErr_shape hcb hb hz hex hwe]
          simp [fsExists_extract_mono _ arch hmk]
        | none =>
          rw [convert_success_shape hcb hb hz hex hwe, hcl]
          simp [fsExists_cleanup_self]

/-- Witness: the amended C1 instantiated on a concrete successful run
(whose temp directory is indeed removed). -/
theorem c1_amended_witness :
    cbSafe (sampleIn none (ZipRead.ok sampleArch)).cb ∧
    (sampleIn none (ZipRead.ok sampleArch)).cleanupOk = true ∧
    ((fsExists (convert_exe_to_sb3 sampleCwd
        (sampleIn none (ZipRead.ok sampleArch)) sampleFS).fs
        (tempDirOf (sampleIn none (ZipRead.ok sampleArch)).outDir) = false) ↔
      (convert_exe_to_sb3 sampleCwd (sampleIn none (ZipRead.ok sampleArch))
        sampleFS).result = PyResult.ret true) :=
  ⟨trivial, rfl,
    c1_amended sampleCwd (sampleIn none (ZipRead.ok sampleArch)) sampleFS
      trivial rfl⟩

/-- C2 is false as stated: on a failing conversion the captured progress
percents are `[10, 0]`, which is not a non-decreasing sequence — the 10%
extraction event (line 70) precedes the terminal 0% failure event. -/
theorem c2_counterexample :
    (convert_exe_to_sb3 sampleCwd
        (sampleIn (some (fun _ => CbRes.ok)) ZipRead.badZip)
        sampleFS).events.map Prod.fst = [10, 0] ∧
    nondecr ((convert_exe_to_sb3 sampleCwd
        (sampleIn (some (fun _ => CbRes.ok)) ZipRead.badZip)
        sampleFS).events.map Prod.fst) = false := by
  decide

/-- C2 (amended): with a progress callback that returns normally, the
events are exactly the milestones `10, 50, 80, 100` (in order, ending
with the 100% success message) when the call succeeds; when it fails the
events are a nonempty proper prefix of the milestones followed by one
terminal 0% failure event — so percents are non-decreasing except for
that final 0% event, and a trace never ends with both a success and a
failure message. -/
theorem c2_amended (cwd : List Char) (inp : ConvIn) (fs0 : FS)
    (b : Nat → CbRes) (hcb : inp.cb = some b) (hb : ∀ n, b n = CbRes.ok) :
    ((convert_exe_to_sb3 cwd inp fs0).result = PyResult.ret true ∧
      (convert_exe_to_sb3 cwd inp fs0).events
        = [(10, msgExtract), (50, msgPack), (80, msgClean), (100, msgDone)]) ∨
    ((convert_exe_to_sb3 cwd inp fs0).result = PyResult.ret false ∧
      ∃ m, (convert_exe_to_sb3 cwd inp fs0).events
            = [(10, msgExtract), (0, m)] ∨
          (convert_exe_to_sb3 cwd inp fs0).events
            = [(10, msgExtract), (50, msgPack), (0, m)]) := by
  have hb' : ∀ n e, b n ≠ CbRes.raiseOther e := fun n e h => by
    rw [hb n] at h
    cases h
  cases hz : inp.zipRead with
  | badZip =>
    rw [convert_badZip_shape hcb hb' hz]
    exact Or.inr ⟨rfl, msgBadZip, Or.inl rfl⟩
  | ioErr m =>
    rw [convert_ioErr_shape hcb hb' hz]
    exact Or.inr ⟨rfl, msgUnexpPre ++ m, Or.inl rfl⟩
  | ok arch =>
    cases hex : fsExists (extractArchive (makedirs fs0 (tempDirOf inp.outDir))
        (tempDirOf inp.outDir) arch) (appDirOf inp.outDir) with
    | false =>
      rw [convert_missing_shape hcb hb' hz hex]
      exact Or.inr ⟨rfl, msgMissPre ++ appDirOf inp.outDir, Or.inl rfl⟩
    | true =>
      cases hwe : inp.writeErr with
      | some m =>
        rw [convert_writeErr_shape hcb hb' hz hex hwe]
        exact Or.inr ⟨rfl, msgWritePre ++ m, Or.inr rfl⟩
      | none =>
        rw [convert_success_shape hcb hb' hz hex hwe]
        exact Or.inl ⟨rfl, rfl⟩

/-- Witness: the amended C2 instantiated on a concrete successful run. -/
theorem c2_amended_witness :
    (sampleIn (some (fun _ => CbRes.ok)) (ZipRead.ok sampleArch)).cb
        = some (fun _ => CbRes.ok) ∧
    (∀ n, (fun _ : Nat => CbRes.ok) n = CbRes.ok) ∧
    (((convert_exe_to_sb3 sampleCwd
        (sampleIn (some (fun _ => CbRes.ok)) (ZipRead.ok sampleArch))
        sampleFS).result = PyResult.ret true ∧
      (convert_exe_to_sb3 sampleCwd
        (sampleIn (some (fun _ => CbRes.ok)) (ZipRead.ok sampleArch))
        sampleFS).events
        = [(10, msgExtract), (50, msgPack), (80, msgClean), (100, msgDone)]) ∨
    ((convert_exe_to_sb3 sampleCwd
        (sampleIn (some (fun _ => CbRes.ok)) (ZipRead.ok sampleArch))
        sampleFS).result = PyResult.ret false ∧
      ∃ m, (convert_exe_to_sb3 sampleCwd
            (sampleIn (some (fun _ => CbRes.ok)) (ZipRead.ok sampleArch))
            sampleFS).events = [(10, msgExtract), (0, m)] ∨
          (convert_exe_to_sb3 sampleCwd
            (sampleIn (some (fun _ => CbRes.ok)) (ZipRead.ok sampleArch))
            sampleFS).events
            = [(10, msgExtract), (50, msgPack), (0, m)])) :=
  ⟨rfl, ⟨(fun _ => rfl),
    c2_amended sampleCwd
      (sampleIn (some (fun _ => CbRes.ok)) (ZipRead.ok sampleArch)) sampleFS
      (fun _ => CbRes.ok) rfl (fun _ => rfl)⟩⟩

/-- C3 is false as stated: a progress callback that raises a
non-`RuntimeError` exception makes `convert_exe_to_sb3` itself raise —
the exception escapes during the `_update_progress` call of the outer
`except Exception` handler (line 121), which is not protected. -/
theorem c3_counterexample :
    (convert_exe_to_sb3 sampleCwd
        (sampleIn (some (fun _ => CbRes.raiseOther (chars "boom")))
          ZipRead.badZip) sampleFS).result
      = PyResult.raised (chars "boom") := by
  decide

/-- C3 (amended): as long as the progress callback raises nothing but
`RuntimeError`, `convert_exe_to_sb3` never lets an exception escape: it
either returns `True`, or it converts the fault into a `False` result
whose progress trace — whenever a callback is present to observe it —
ends with a 0% event carrying the failure message. -/
theorem c3_amended (cwd : List Char) (inp : ConvIn) (fs0 : FS)
    (hsafe : cbSafe inp.cb) :
    (convert_exe_to_sb3 cwd inp fs0).result = PyResult.ret true ∨
    ((convert_exe_to_sb3 cwd inp fs0).result = PyResult.ret false ∧
      ∀ b, inp.cb = some b →
        ∃ m, (convert_exe_to_sb3 cwd inp fs0).events.getLast?
          = some (0, m)) := by
  cases hcb : inp.cb with
  | none =>
    cases hz : inp.zipRead with
    | badZip =>
      rw [convert_badZip_shape_none hcb hz]
      exact Or.inr ⟨rfl, fun b hb => nomatch hb⟩
    | ioErr m =>
      rw [convert_ioErr_shape_none hcb hz]
      exact Or.inr ⟨rfl, fun b hb => nomatch hb⟩
    | ok arch =>
      cases hex : fsExists (extractArchive (makedirs fs0 (tempDirOf inp.outDir))
          (tempDirOf inp.outDir) arch) (appDirOf inp.outDir) with
      | false =>
        rw [convert_missing_shape_none hcb hz hex]
        exact Or.inr ⟨rfl, fun b hb => nomatch hb⟩
      | true =>
        cases hwe : inp.writeErr with
        | some m =>
          rw [convert_writeErr_shape_none hcb hz hex hwe]
          exact Or.inr ⟨rfl, fun b hb => nomatch hb⟩
        | none =>
          rw [convert_success_shape_none hcb hz hex hwe]
          exact Or.inl rfl
  | some b =>
    have hb : ∀ n e, b n ≠ CbRes.raiseOther e := by
      rw [hcb] at hsafe
      exact hsafe
    cases hz : inp.zipRead with
    | badZip =>
      rw [convert_badZip_shape hcb hb hz]
      exact Or.inr ⟨rfl, fun b' _ => ⟨msgBadZip, rfl⟩⟩
    | ioErr m =>
      rw [convert_ioErr_shape hcb hb hz]
      exact Or.inr ⟨rfl, fun b' _ => ⟨msgUnexpPre ++ m, rfl⟩⟩
    | ok arch =>
      cases hex : fsExists (extractArchive (makedirs fs0 (tempDirOf inp.outDir))
          (tempDirOf inp.outDir) arch) (appDirOf inp.outDir) with
      | false =>
        rw [convert_missing_shape hcb hb hz hex]
        exact Or.inr ⟨rfl, fun b' _ => ⟨msgMissPre ++ appDirOf inp.outDir, rfl⟩⟩
      | true =>
        cases hwe : inp.writeErr with
        | some m =>
          rw [convert_writeErr_shape hcb hb hz hex hwe]
          exact Or.inr ⟨rfl, fun b' _ => ⟨msgWritePre ++ m, rfl⟩⟩
        | none =>
          rw [convert_success_shape hcb hb hz hex hwe]
          exact Or.inl rfl

/-- Witness: the amended C3 instantiated on a failing run whose callback
raises `RuntimeError` at every invocation. -/
theorem c3_amended_witness :
    cbSafe (sampleIn (some (fun _ => CbRes.raiseRuntime)) ZipRead.badZip).cb ∧
    ((convert_exe_to_sb3 sampleCwd
        (sampleIn (some (fun _ => CbRes.raiseRuntime)) ZipRead.badZip)
        sampleFS).result = PyResult.ret true ∨
      ((convert_exe_to_sb3 sampleCwd
          (sampleIn (some (fun _ => CbRes.raiseRuntime)) ZipRead.badZip)
          sampleFS).result = PyResult.ret false ∧
        ∀ b, (sampleIn (some (fun _ => CbRes.raiseRuntime))
            ZipRead.badZip).cb = some b →
          ∃ m, (convert_exe_to_sb3 sampleCwd
              (sampleIn (some (fun _ => CbRes.raiseRuntime)) ZipRead.badZip)
              sampleFS).events.getLast? = some (0, m))) :=
  ⟨(fun _ _ h => nomatch h),
    c3_amended sampleCwd
      (sampleIn (some (fun _ => CbRes.raiseRuntime)) ZipRead.badZip) sampleFS
      (fun _ _ h => nomatch h)⟩

/-- C9: if the progress callback raises `RuntimeError` because the
calling context has been torn down (the error Qt raises once the
invoking UI is closed, and the one `_update_progress` line 130 catches),
the invocation is swallowed silently: no exception propagates out of
`convert_exe_to_sb3`, and the conversion's result is the same as with no
callback at all. -/
theorem c9_runtime_swallowed (cwd : List Char) (inp : ConvIn) (fs0 : FS)
    (b : Nat → CbRes) (hcb : inp.cb = some b)
    (hb : ∀ n, b n = CbRes.ok ∨ b n = CbRes.raiseRuntime) :
    (∃ bv, (convert_exe_to_sb3 cwd inp fs0).result = PyResult.ret bv) ∧
    (convert_exe_to_sb3 cwd inp fs0).result
      = (convert_exe_to_sb3 cwd { inp with cb := none } fs0).result := by
  have hsafe : cbSafe inp.cb := by
    rw [hcb]
    intro n e h
    rcases hb n with h1 | h1 <;> rw [h1] at h <;> cases h
  have hsafe' : cbSafe ({ inp with cb := none } : ConvIn).cb := trivial
  have h1 := @convert_result_eq_resultOf cwd inp fs0 hsafe
  have h2 := @convert_result_eq_resultOf cwd { inp with cb := none } fs0 hsafe'
  constructor
  · rw [h1]
    exact resultOf_ret inp fs0
  · rw [h1, h2]
    rfl

/-- Witness: C9 instantiated on a run whose callback raises
`RuntimeError` at every invocation. -/
theorem c9_runtime_swallowed_witness :
    (sampleIn (some (fun _ => CbRes.raiseRuntime)) (ZipRead.ok sampleArch)).cb
        = some (fun _ => CbRes.raiseRuntime) ∧
    (∀ n, (fun _ : Nat => CbRes.raiseRuntime) n = CbRes.ok ∨
      (fun _ : Nat => CbRes.raiseRuntime) n = CbRes.raiseRuntime) ∧
    ((∃ bv, (convert_exe_to_sb3 sampleCwd
        (sampleIn (some (fun _ => CbRes.raiseRuntime)) (ZipRead.ok sampleArch))
        sampleFS).result = PyResult.ret bv) ∧
      (convert_exe_to_sb3 sampleCwd
        (sampleIn (some (fun _ => CbRes.raiseRuntime)) (ZipRead.ok sampleArch))
        sampleFS).result
        = (convert_exe_to_sb3 sampleCwd
            { sampleIn (some (fun _ => CbRes.raiseRuntime))
                (ZipRead.ok sampleArch) with cb := none }
            sampleFS).result) :=
  ⟨rfl, ⟨(fun _ => Or.inr rfl),
    c9_runtime_swallowed sampleCwd
      (sampleIn (some (fun _ => CbRes.raiseRuntime)) (ZipRead.ok sampleArch))
      sampleFS (fun _ => CbRes.raiseRuntime) rfl (fun _ => Or.inr rfl)⟩⟩

/-- C10: for every pair of inputs (with an absolute working directory, as
`os.getcwd` guarantees), the relative path returned by `custom_relpath`
contains no `.` and no `..` segments: the collapsing loop drops `.`
segments and makes each `..` pop the previously kept segment, silently
discarding `..` segments that would escape the relative root, and in the
not-a-substring branch the returned path has been normalized and
absolutized, which removes all dot segments as well. -/
theorem c10_no_dot_segments (cwd path start : List Char)
    (hcwd : isAbsP cwd = true) :
    ∀ s ∈ splitSep '/' (custom_relpath (posixPlat cwd) path start),
      s ≠ ['.'] ∧ s ≠ ['.', '.'] := by
  unfold custom_relpath
  simp only [posixPlat]
  by_cases hsub : isSubstr (abspathPosix cwd (normpathPosix start))
      (abspathPosix cwd (normpathPosix path)) = true
  · rw [if_pos hsub]
    exact joinSep_relCollapse_no_dots (fun x hx => not_mem_splitSep hx)
  · rw [if_neg hsub]
    exact abspathPosix_no_dots _ hcwd

/-- Witness: C10 instantiated on concrete inputs containing dot
segments. -/
theorem c10_no_dot_segments_witness :
    isAbsP (chars "/cwd") = true ∧
    ∀ s ∈ splitSep '/' (custom_relpath (posixPlat (chars "/cwd"))
        (chars "/app/resources/x/../assets/./a.png") (chars "/app/resources")),
      s ≠ ['.'] ∧ s ≠ ['.', '.'] :=
  ⟨rfl, c10_no_dot_segments (chars "/cwd")
    (chars "/app/resources/x/../assets/./a.png") (chars "/app/resources") rfl⟩

/-- C5: for a valid zip input whose extracted contents lack the
`packaged-project/resources/app` subdirectory (into a well-formed rooted
output directory with a fresh workspace), `convert_exe_to_sb3` returns
`False` with a 0% progress event whose message carries that path, and
creates no output archive: the only files added to the filesystem are the
raw extracted temp files. -/
theorem c5_missing_resource (cwd : List Char) (inp : ConvIn) (fs0 : FS)
    (b : Nat → CbRes) (arch : Archive) (O : List Seg)
    (hcb : inp.cb = some b) (hb : ∀ n e, b n ≠ CbRes.raiseOther e)
    (hz : inp.zipRead = ZipRead.ok arch)
    (hout : inp.outDir = mkPath O) (hO : wfSegs O)
    (hd : ∀ d ∈ arch.adirs, ¬ pppSegs <+: d)
    (hf : ∀ f ∈ arch.afiles, ¬ pppSegs <+: f.1)
    (hfsd : ∀ d ∈ fs0.dirs, ¬ (O ++ [chars "temp_extract"]) <+: d)
    (hfsf : ∀ f ∈ fs0.files, ¬ (O ++ [chars "temp_extract"]) <+: f.1) :
    (convert_exe_to_sb3 cwd inp fs0).result = PyResult.ret false ∧
    (convert_exe_to_sb3 cwd inp fs0).events
      = [(10, msgExtract), (0, msgMissPre ++ appDirOf inp.outDir)] ∧
    (convert_exe_to_sb3 cwd inp fs0).fs.files
      = fs0.files ++ arch.afiles.map
          (fun f => (winSegs (tempDirOf inp.outDir) ++ f.1,
            FContent.raw f.2)) := by
  have hex : fsExists (extractArchive (makedirs fs0 (tempDirOf inp.outDir))
      (tempDirOf inp.outDir) arch) (appDirOf inp.outDir) = false := by
    rw [hout]
    exact fsExists_app_missing hO hd hf hfsd hfsf
  rw [convert_missing_shape hcb hb hz hex]
  exact ⟨rfl, rfl, rfl⟩

/-- Witness: C5 instantiated on a concrete archive without the expected
layout. -/
theorem c5_missing_resource_witness :
    (sampleIn (some (fun _ => CbRes.ok)) (ZipRead.ok sampleArchBad)).cb
        = some (fun _ => CbRes.ok) ∧
    (∀ n e, (fun _ : Nat => CbRes.ok) n ≠ CbRes.raiseOther e) ∧
    (sampleIn (some (fun _ => CbRes.ok)) (ZipRead.ok sampleArchBad)).zipRead
        = ZipRead.ok sampleArchBad ∧
    (sampleIn (some (fun _ => CbRes.ok)) (ZipRead.ok sampleArchBad)).outDir
        = mkPath [chars "out"] ∧
    wfSegs [chars "out"] ∧
    (∀ d ∈ sampleArchBad.adirs, ¬ pppSegs <+: d) ∧
    (∀ f ∈ sampleArchBad.afiles, ¬ pppSegs <+: f.1) ∧
    (∀ d ∈ sampleFS.dirs, ¬ ([chars "out"] ++ [chars "temp_extract"]) <+: d) ∧
    (∀ f ∈ sampleFS.files,
      ¬ ([chars "out"] ++ [chars "temp_extract"]) <+: f.1) ∧
    ((convert_exe_to_sb3 sampleCwd
        (sampleIn (some (fun _ => CbRes.ok)) (ZipRead.ok sampleArchBad))
        sampleFS).result = PyResult.ret false ∧
      (convert_exe_to_sb3 sampleCwd
        (sampleIn (some (fun _ => CbRes.ok)) (ZipRead.ok sampleArchBad))
        sampleFS).events
        = [(10, msgExtract), (0, msgMissPre ++ appDirOf
            (sampleIn (some (fun _ => CbRes.ok))
              (ZipRead.ok sampleArchBad)).outDir)] ∧
      (convert_exe_to_sb3 sampleCwd
        (sampleIn (some (fun _ => CbRes.ok)) (ZipRead.ok sampleArchBad))
        sampleFS).fs.files
        = sampleFS.files ++ sampleArchBad.afiles.map
            (fun f => (winSegs (tempDirOf (sampleIn (some (fun _ => CbRes.ok))
                (ZipRead.ok sampleArchBad)).outDir) ++ f.1,
              FContent.raw f.2))) :=
  ⟨rfl, ⟨(fun _ _ h => nomatch h), ⟨rfl, ⟨rfl, ⟨by decide, ⟨by decide,
    ⟨by decide, ⟨(fun d hd => nomatch hd), ⟨(fun f hf => nomatch hf),
    c5_missing_resource sampleCwd
      (sampleIn (some (fun _ => CbRes.ok)) (ZipRead.ok sampleArchBad))
      sampleFS (fun _ => CbRes.ok) sampleArchBad [chars "out"] rfl
      (fun _ _ h => nomatch h) rfl rfl (by decide) (by decide) (by decide)
      (fun d hd => nomatch hd) (fun f hf => nomatch hf)⟩⟩⟩⟩⟩⟩⟩⟩⟩

/-- C6: for a well-formed input archive with the expected layout
(extracted into a well-formed rooted output directory whose workspace is
fresh), `convert_exe_to_sb3` returns `True` and produces an archive at
`<outputDirectory>/<inputBaseName-without-extension>.sb3` containing
exactly the regular files found under `packaged-project/resources/app/`,
each stored under the archive path equal to its path relative to that
resources subdirectory (a file directly inside it gets just its filename,
with no `packaged-project/...` prefix). -/
theorem c6_success_repack (cwd zfn : List Char) (O : List Seg)
    (b : Nat → CbRes) (arch : Archive) (fs0 : FS) (cok : Bool)
    (hO : wfSegs O) (hb : ∀ n e, b n ≠ CbRes.raiseOther e)
    (harch : ∀ f ∈ arch.afiles, ∀ s ∈ f.1, wfSeg s)
    (happ : pppSegs ∈ arch.adirs)
    (hfsf : ∀ f ∈ fs0.files, ¬ (O ++ [chars "temp_extract"]) <+: f.1) :
    (convert_exe_to_sb3 cwd
        ⟨zfn, mkPath O, some b, ZipRead.ok arch, none, cok⟩ fs0).result
      = PyResult.ret true ∧
    ∃ entries,
      fileAt (convert_exe_to_sb3 cwd
          ⟨zfn, mkPath O, some b, ZipRead.ok arch, none, cok⟩ fs0).fs
        (O ++ [sb3Name zfn]) = some (FContent.zipped entries) ∧
      ∀ arc data, ((arc, data) ∈ entries ↔
        ∃ B nm, (pppSegs ++ (B ++ [nm]), data) ∈ arch.afiles ∧
          arc = joinSep '\\' (B ++ [nm])) := by
  have hex : fsExists (extractArchive
      (makedirs fs0 (tempDirOf
        (⟨zfn, mkPath O, some b, ZipRead.ok arch, none, cok⟩ : ConvIn).outDir))
      (tempDirOf
        (⟨zfn, mkPath O, some b, ZipRead.ok arch, none, cok⟩ : ConvIn).outDir)
      arch) (appDirOf
        (⟨zfn, mkPath O, some b, ZipRead.ok arch, none, cok⟩ : ConvIn).outDir)
      = true := fsExists_app_layout hO fs0 happ
  rw [convert_success_shape rfl hb rfl hex rfl]
  refine ⟨rfl, repackEntries cwd
    (extractArchive (makedirs fs0 (tempDirOf (mkPath O)))
      (tempDirOf (mkPath O)) arch) (appDirOf (mkPath O)), ?_, ?_⟩
  · exact fileAt_write_cleanup cwd hO zfn _ cok
  · exact repackEntries_spec cwd hO harch hfsf

/-- Witness: C6 instantiated on the concrete layout of the spec's test
property (`project.json` and `assets/a.png` under the app directory). -/
theorem c6_success_repack_witness :
    wfSegs [chars "out"] ∧
    (∀ n e, (fun _ : Nat => CbRes.ok) n ≠ CbRes.raiseOther e) ∧
    (∀ f ∈ sampleArch.afiles, ∀ s ∈ f.1, wfSeg s) ∧
    pppSegs ∈ sampleArch.adirs ∧
    (∀ f ∈ sampleFS.files,
      ¬ ([chars "out"] ++ [chars "temp_extract"]) <+: f.1) ∧
    ((convert_exe_to_sb3 sampleCwd
        ⟨chars "\\in\\a.zip", mkPath [chars "out"], some (fun _ => CbRes.ok),
          ZipRead.ok sampleArch, none, true⟩ sampleFS).result
        = PyResult.ret true ∧
      ∃ entries,
        fileAt (convert_exe_to_sb3 sampleCwd
            ⟨chars "\\in\\a.zip", mkPath [chars "out"],
              some (fun _ => CbRes.ok), ZipRead.ok sampleArch, none, true⟩
            sampleFS).fs
          ([chars "out"] ++ [sb3Name (chars "\\in\\a.zip")])
          = some (FContent.zipped entries) ∧
        ∀ arc data, ((arc, data) ∈ entries ↔
          ∃ B nm, (pppSegs ++ (B ++ [nm]), data) ∈ sampleArch.afiles ∧
            arc = joinSep '\\' (B ++ [nm]))) :=
  ⟨by decide, ⟨(fun _ _ h => nomatch h), ⟨by decide, ⟨by decide,
    ⟨(fun f hf => nomatch hf),
    c6_success_repack sampleCwd (chars "\\in\\a.zip") [chars "out"]
      (fun _ => CbRes.ok) sampleArch sampleFS true (by decide)
      (fun _ _ h => nomatch h) (by decide) (by decide)
      (fun f hf => nomatch hf)⟩⟩⟩⟩⟩
